import Mathlib

/-! Cobalt tensor addressing and Tensile scalar marshaling.

A shallow embedding of `CobaltLib/src/Tensor.cpp` (linear index, footprint,
canonical dimension order, shape comparison) and of the scalar marshaling
callbacks of `Tensile/hip/HipSolutionAdapter.hpp`, with the properties of the
specification stated and settled over it.

Machine integers are natural numbers reduced explicitly: `unsigned int`
arithmetic is taken modulo `2 ^ 32`, `size_t` arithmetic modulo `2 ^ 64`.
-/

namespace Cobalt

/-- Modelled from the spec: the width of `unsigned int`, the type of the
`stride` and `size` fields and of coordinates (the declaration in `Cobalt.h`
is absent); arithmetic on it wraps modulo this value. -/
def UINT_MOD : Nat := 2 ^ 32

/-- Modelled from the spec: the range of `size_t`, the result type of
`getIndex` and `numElements`; arithmetic on it wraps modulo this value. -/
def SIZE_MOD : Nat := 2 ^ 64

/-- Modelled from the spec: `CobaltDimension` (declared in `Cobalt.h`, absent)
is a pair of unsigned integers, a stride and a size. -/
structure CobaltDimension where
  stride : Nat
  size : Nat
deriving DecidableEq, Repr

/-- Modelled from the spec: the class `Tensor` (declared in `Tensor.h`, absent)
holds a data-type tag and the dimension vector, the two members its constructor
initialises. The tag type `CobaltDataType` (an enum declared in `Cobalt.h`,
absent) is represented by its enumerator value, and `<` on tags is `<` on
these values. -/
structure Tensor where
  dataType : Nat
  dimensions : List CobaltDimension
deriving DecidableEq, Repr

/-- A dimension whose two fields fit in an `unsigned int`. -/
def CobaltDimension.inRange (d : CobaltDimension) : Prop :=
  d.stride < UINT_MOD ∧ d.size < UINT_MOD

instance (d : CobaltDimension) : Decidable d.inRange := by
  unfold CobaltDimension.inRange; infer_instance

/-- A tensor the constructor can build: the dimension count is an
`unsigned int` (`tensor.numDimensions`) and every field fits its type. -/
def Tensor.wellFormed (t : Tensor) : Prop :=
  t.dimensions.length < UINT_MOD ∧ ∀ d ∈ t.dimensions, d.inRange

instance (t : Tensor) : Decidable t.wellFormed := by
  unfold Tensor.wellFormed; infer_instance

/-- The function `Tensor::numDims`: the vector length cast to `unsigned int`. -/
def Tensor.numDims (t : Tensor) : Nat :=
  t.dimensions.length % UINT_MOD

/-- The body of the loop of `Tensor::getIndex` over the dimensions still to
visit: `serial += coords[i] * dimensions[i].stride`, the product computed in
`unsigned int`, the sum in `size_t`. Reading `coords[i]` past the end of
`coords` has no defined result. -/
def getIndexLoop : List CobaltDimension → List Nat → Nat → Option Nat
  | [], _, serial => some serial
  | _ :: _, [], _ => none
  | d :: ds, c :: cs, serial =>
    getIndexLoop ds cs ((serial + (c * d.stride) % UINT_MOD) % SIZE_MOD)

/-- The function `Tensor::getIndex`: the loop runs over `i < numDims()` from
`serial = 0`. -/
def Tensor.getIndex (t : Tensor) (coords : List Nat) : Option Nat :=
  getIndexLoop (t.dimensions.take t.numDims) coords 0

/-- The body of the loop of `Tensor::numElements` over the dimensions still to
visit: `dimSize = size * stride` computed in `unsigned int`, then
`size = dimSize > size ? dimSize : size`. -/
def numElementsLoop : List CobaltDimension → Nat → Nat
  | [], size => size
  | d :: ds, size =>
    let dimSize := (d.size * d.stride) % UINT_MOD
    numElementsLoop ds (if dimSize > size then dimSize else size)

/-- The function `Tensor::numElements`: the loop runs over `i < numDims()` from
`size = 0`. -/
def Tensor.numElements (t : Tensor) : Nat :=
  numElementsLoop (t.dimensions.take t.numDims) 0

/-- The sum the specification gives for `linearIndex`: the sum over
`i < n` of `coords[i] * stride[i]`, in unbounded arithmetic. -/
def linearIndexSpec (t : Tensor) (coords : List Nat) : Nat :=
  ∑ i in Finset.range t.dimensions.length,
    coords.getD i 0 * ((t.dimensions[i]?).map (·.stride)).getD 0

/-- The value the specification gives for `footprint`: the maximum over
`i < n` of `size[i] * stride[i]`, in unbounded arithmetic, `0` when there is no
dimension. -/
def footprintSpec (t : Tensor) : Nat :=
  (t.dimensions.map (fun d => d.size * d.stride)).foldr max 0

/-- The product of the sizes of a dimension list. -/
def sizeProduct (ds : List CobaltDimension) : Nat :=
  (ds.map (·.size)).prod

/-- A contiguous row-major-equivalent shape: `stride[0] = 1` and, for each
`i ≥ 1`, `stride[i] = size[0] * ... * size[i-1]`. -/
def Tensor.isContiguous (t : Tensor) : Prop :=
  (t.dimensions[0]?).map (·.stride) = some 1 ∧
  ∀ i < t.dimensions.length, 1 ≤ i →
    (t.dimensions[i]?).map (·.stride) = some (sizeProduct (t.dimensions.take i))

instance (t : Tensor) : Decidable t.isContiguous := by
  unfold Tensor.isContiguous; infer_instance

/-- A one-dimensional shape of stride `65536` and size `65537`: at the in-bounds
coordinate `65536` the product `coords[0] * stride[0]` is `2 ^ 32`. -/
def wideStride : Tensor := ⟨0, [⟨65536, 65537⟩]⟩

/-- A one-dimensional shape with `size[0] * stride[0] = 2 ^ 32`. -/
def wideRow : Tensor := ⟨0, [⟨65536, 65536⟩]⟩

/-- A two-dimensional shape, sizes `(3, 2)` and strides `(1, 3)`. -/
def smallMatrix : Tensor := ⟨0, [⟨1, 3⟩, ⟨3, 2⟩]⟩

/-- A two-dimensional shape whose two dimensions overlap: sizes `(2, 3)`,
strides `(1, 1)`. -/
def overlapped : Tensor := ⟨0, [⟨1, 2⟩, ⟨1, 3⟩]⟩

/-- Every size is at least one. -/
def Tensor.sizesPositive (t : Tensor) : Prop :=
  ∀ d ∈ t.dimensions, 1 ≤ d.size

instance (t : Tensor) : Decidable t.sizesPositive := by
  unfold Tensor.sizesPositive; infer_instance

/-- The coordinate vector has an entry below the size for every dimension:
`coords[i] < size[i]` for all `i < n`. -/
def coordsBelow (ds : List CobaltDimension) (coords : List Nat) : Prop :=
  ds.length ≤ coords.length ∧
  ∀ i < ds.length, coords.getD i 0 < ((ds[i]?).map (·.size)).getD 0

instance (ds : List CobaltDimension) (coords : List Nat) : Decidable (coordsBelow ds coords) := by
  unfold coordsBelow; infer_instance

/-- The strides of `ds` continue a contiguous layout whose faster dimensions
hold `p` elements: each stride is `p` times the sizes before it. -/
def strideChain : Nat → List CobaltDimension → Prop
  | _, [] => True
  | p, d :: ds => d.stride = p ∧ strideChain (p * d.size) ds

/-- A contiguous shape with a dimension of size `0`: sizes `(2, 0)`, strides
`(1, 2)`. -/
def emptySlab : Tensor := ⟨0, [⟨1, 2⟩, ⟨2, 0⟩]⟩

/-- A contiguous shape of `2 ^ 32` elements: sizes `(65536, 65536)`, strides
`(1, 65536)`. -/
def hugeMatrix : Tensor := ⟨0, [⟨1, 65536⟩, ⟨65536, 65536⟩]⟩

/-- The dimensions of `ds` do not overlap above an extent `lo`: each stride is
at least the extent `size * stride` of the dimension before it, the first one
at least `lo`. -/
def stridesNested : Nat → List CobaltDimension → Bool
  | _, [] => true
  | lo, d :: ds => decide (lo ≤ d.stride) && stridesNested (d.size * d.stride) ds

/-- A shape with at least one dimension whose dimensions do not overlap:
`stride[0] ≥ 1` and `stride[i+1] ≥ size[i] * stride[i]`. Contiguous and padded
layouts are of this kind. -/
def Tensor.nonOverlapping (t : Tensor) : Prop :=
  t.dimensions ≠ [] ∧ stridesNested 1 t.dimensions = true

instance (t : Tensor) : Decidable t.nonOverlapping := by
  unfold Tensor.nonOverlapping; infer_instance

/-- No product `size[i] * stride[i]` reaches `2 ^ 32`. -/
def Tensor.extentsFit (t : Tensor) : Prop :=
  ∀ d ∈ t.dimensions, d.size * d.stride < UINT_MOD

instance (t : Tensor) : Decidable t.extentsFit := by
  unfold Tensor.extentsFit; infer_instance

/-- The shape with no dimension. -/
def scalarShape : Tensor := ⟨0, []⟩

/-- A one-dimensional shape of size `4` and stride `0`. -/
def broadcastShape : Tensor := ⟨0, [⟨0, 4⟩]⟩

/-- A padded matrix: sizes `(3, 2)`, strides `(1, 5)`. -/
def paddedMatrix : Tensor := ⟨0, [⟨1, 3⟩, ⟨5, 2⟩]⟩

/-- The two-dimensional shape with sizes `(m, n)` and strides `(1, ld)`. -/
def paddedShape (ty m n ld : Nat) : Tensor := ⟨ty, [⟨1, m⟩, ⟨ld, n⟩]⟩


/-! ### Canonical dimension order -/

/-- Modelled from the spec: `operator<` on `CobaltDimension` (declared in
`StructOperations.h`, absent), the total order used for canonicalisation; the
source describes it as descending stride, ties are broken by descending
size. -/
def dimensionLess (l r : CobaltDimension) : Bool :=
  if l.stride > r.stride then true
  else if r.stride > l.stride then false
  else if l.size > r.size then true
  else if r.size > l.size then false
  else false

/-- A comparison on dimensions that is a strict total order: irreflexive,
transitive, and deciding every pair of distinct dimensions. -/
def StrictTotal (lt : CobaltDimension → CobaltDimension → Bool) : Prop :=
  (∀ a, lt a a = false) ∧
  (∀ a b c, lt a b = true → lt b c = true → lt a c = true) ∧
  (∀ a b, a ≠ b → lt a b = true ∨ lt b a = true)

/-- A dimension sequence sorted under `lt`: no later element is less than an
earlier one. -/
def SortedBy (lt : CobaltDimension → CobaltDimension → Bool)
    (l : List CobaltDimension) : Prop :=
  l.Pairwise (fun a b => lt b a = false)

/-- One step of the sort: `x` is placed before the first element it is less
than. -/
def orderedInsert (lt : CobaltDimension → CobaltDimension → Bool) (x : CobaltDimension) :
    List CobaltDimension → List CobaltDimension
  | [] => [x]
  | y :: ys => if lt x y then x :: y :: ys else y :: orderedInsert lt x ys

/-- The call `std::sort(dimensions.begin(), dimensions.end())`: the elements in
ascending order of `operator<`. Under a strict total order the sorted
rearrangement is unique, so the algorithm chosen does not matter. -/
def stdSort (lt : CobaltDimension → CobaltDimension → Bool) (l : List CobaltDimension) :
    List CobaltDimension :=
  l.foldr (orderedInsert lt) []

/-- Modelled from the spec: `operator==` on `CobaltDimension` (declared in
`StructOperations.h`, absent) holds when stride and size are both equal. -/
def dimensionEq (l r : CobaltDimension) : Bool :=
  l.stride == r.stride && l.size == r.size

/-- The call `std::find(begin, end, value) - begin`: the index of the first
element equal to `value` under `operator==`, the length when there is none. -/
def stdFind : List CobaltDimension → CobaltDimension → Nat
  | [], _ => 0
  | d :: ds, value => if dimensionEq d value then 0 else stdFind ds value + 1

/-- The function `Tensor::sortDimensions`: sorts the dimension vector in place
and returns, for each `i < numDims()`, the index at which `dimensionsOld[i]` is
found in the sorted vector, cast to `unsigned int`. The result is the tensor
after the call and the returned vector. -/
def Tensor.sortDimensions (lt : CobaltDimension → CobaltDimension → Bool) (t : Tensor) :
    Tensor × List Nat :=
  let dimensionsOld := t.dimensions
  let sorted : Tensor := { t with dimensions := stdSort lt t.dimensions }
  (sorted, (dimensionsOld.take sorted.numDims).map
    (fun value => stdFind sorted.dimensions value % UINT_MOD))

/-- The returned vector maps every index it holds to a fixed point:
`P[P[i]] = P[i]` for every `i`. -/
def orderIdempotent (order : List Nat) : Prop :=
  ∀ i < order.length, order[order.getD i 0]? = some (order.getD i 0)

instance (order : List Nat) : Decidable (orderIdempotent order) := by
  unfold orderIdempotent; infer_instance

/-- A shape with two pairs of equal dimensions, out of order under
`dimensionLess`. -/
def mirrored : Tensor := ⟨0, [⟨2, 1⟩, ⟨1, 1⟩, ⟨1, 1⟩, ⟨2, 1⟩]⟩

/-- A contiguous shape with two dimensions of size `1`: sizes `(1, 1, 4)`,
strides `(1, 1, 1)`. -/
def thinSlab : Tensor := ⟨0, [⟨1, 1⟩, ⟨1, 1⟩, ⟨1, 4⟩]⟩

/-- A shape of three distinct dimensions in ascending stride. -/
def ascending : Tensor := ⟨0, [⟨1, 4⟩, ⟨4, 2⟩, ⟨8, 2⟩]⟩

/-! ### Shape comparison -/

/-- The loop of `Tensor::operator<` over the dimensions still to compare:
the first position where one dimension is less than the other decides; when
the loop ends the shapes are identical and the result is `false`. Reading
`other.dimensions[i]` past the end (possible only when the two `numDims()`
agree but the lengths do not) has no defined result and is mapped to `false`. -/
def lessLoop (lt : CobaltDimension → CobaltDimension → Bool) :
    List CobaltDimension → List CobaltDimension → Bool
  | a :: as, b :: bs =>
    if lt a b then true
    else if lt b a then false
    else lessLoop lt as bs
  | _, _ => false

/-- The function `Tensor::operator<`: compares the data-type tags, then
`numDims()`, then the dimensions for `i < numDims()`. -/
def Tensor.less (lt : CobaltDimension → CobaltDimension → Bool) (a other : Tensor) : Bool :=
  if a.dataType < other.dataType then true
  else if other.dataType < a.dataType then false
  else if a.numDims < other.numDims then true
  else if other.numDims < a.numDims then false
  else lessLoop lt (a.dimensions.take a.numDims) other.dimensions

/-- The comparison the specification describes: lexicographic on the data-type
tag, then the dimension count, then the dimensions element by element (the
first position where they differ decides, by the dimension order). -/
def lexLess (lt : CobaltDimension → CobaltDimension → Bool) (a b : Tensor) : Prop :=
  a.dataType < b.dataType ∨
  (a.dataType = b.dataType ∧
    (a.dimensions.length < b.dimensions.length ∨
    (a.dimensions.length = b.dimensions.length ∧
      ∃ (i : Nat) (x y : CobaltDimension), (∀ j < i, a.dimensions[j]? = b.dimensions[j]?) ∧
        a.dimensions[i]? = some x ∧ b.dimensions[i]? = some y ∧ lt x y = true)))

/-- A shape of two dimensions with the tag `1`. -/
def shapeA : Tensor := ⟨1, [⟨4, 2⟩, ⟨1, 4⟩]⟩

/-- A shape equal to `shapeA` but for the size of its last dimension. -/
def shapeB : Tensor := ⟨1, [⟨4, 2⟩, ⟨1, 3⟩]⟩

/-- A shape of three dimensions with the tag `1`. -/
def shapeC : Tensor := ⟨1, [⟨4, 2⟩, ⟨1, 3⟩, ⟨1, 1⟩]⟩

end Cobalt

namespace Tensile

/-! ### Scalar marshaling -/

/-- Modelled from the spec: the enum `DataType` (declared in
`Tensile/DataTypes.hpp`, absent). The tags `load_scalar` names are listed;
`Other` stands for every further enumerator. -/
inductive DataType where
  | Float
  | Double
  | ComplexFloat
  | ComplexDouble
  | Half
  | Int32
  | BFloat16
  | None
  | Other (code : Nat)
deriving DecidableEq, Repr

/-- The value handed to `updateValue<T>`: the template argument `T` together
with the IEEE-754 encoding of the value (for the complex types, of its real
and imaginary parts). -/
inductive ArgValue where
  | float (bits : Nat)
  | double (bits : Nat)
  | complexFloat (re im : Nat)
  | complexDouble (re im : Nat)
deriving DecidableEq, Repr

/-- Modelled from the spec: `KernelArguments` (declared in
`Tensile/KernelArguments.hpp`, absent) maps argument names to slots. It is
represented by the sequence of `updateValue` calls it has received, the newest
last; a slot holds the value of the last call on its name. -/
structure KernelArguments where
  updates : List (String × ArgValue)
deriving DecidableEq, Repr

/-- Modelled from the spec: `KernelArguments::updateValue<T>(name, value)`
writes `value`, with the type `T`, into the slot called `name`. -/
def KernelArguments.updateValue (k : KernelArguments) (name : String) (value : ArgValue) :
    KernelArguments :=
  ⟨k.updates ++ [(name, value)]⟩

/-- The content of the slot called `name`: the value of the last update on
it, if any. -/
def KernelArguments.slot (k : KernelArguments) (name : String) : Option ArgValue :=
  (k.updates.reverse.find? (fun p => p.1 = name)).map (·.2)

/-- Modelled from the spec: `KernelGraphInvocation` (declared in
`Tensile/Tensile.hpp`, absent), with the members the callbacks use. The
pointers `alpha` and `beta` are represented by the bytes they point to, read
as a little-endian number; `kArgs` by the object it points to. -/
structure KernelGraphInvocation where
  alpha : Nat
  alphaType : DataType
  beta : Nat
  betaType : DataType
  isSourceKernel : Bool
  kArgs : KernelArguments
deriving DecidableEq, Repr

/-- How a callback ends: by returning, or by throwing a `std::runtime_error`
with the message `what`. -/
inductive Outcome where
  | ok
  | thrown (what : String)
deriving DecidableEq, Repr

/-- The read `*static_cast<float*>(arg)`: the first four bytes. -/
def readFloat (arg : Nat) : Nat := arg % 2 ^ 32

/-- The read `*static_cast<double*>(arg)`: the first eight bytes. -/
def readDouble (arg : Nat) : Nat := arg % 2 ^ 64

/-- The read `*static_cast<std::complex<float>*>(arg)`: two consecutive
floats, the real part first. -/
def readComplexFloat (arg : Nat) : Nat × Nat := (arg % 2 ^ 32, arg / 2 ^ 32 % 2 ^ 32)

/-- The read `*static_cast<std::complex<double>*>(arg)`: two consecutive
doubles, the real part first. -/
def readComplexDouble (arg : Nat) : Nat × Nat := (arg % 2 ^ 64, arg / 2 ^ 64 % 2 ^ 64)

/-- The read `*static_cast<int32_t*>(arg)`: the first four bytes as a two's
complement integer. -/
def readInt32 (arg : Nat) : Int :=
  if arg % 2 ^ 32 < 2 ^ 31 then (arg % 2 ^ 32 : Nat) else (arg % 2 ^ 32 : Nat) - 2 ^ 32

/-- The position of the leading one of `m`, for `1 ≤ m < 2 ^ fuel`. -/
def floorLog2 : Nat → Nat → Nat
  | 0, _ => 0
  | fuel + 1, m => if 2 ≤ m then floorLog2 fuel (m / 2) + 1 else 0

/-- The conversion `int32_t → float` applied to the argument of
`updateValue<float>(name, value)` when `value` is an `int32_t`: the IEEE-754
binary32 encoding of the nearest float, ties to even. The 24-bit significand
is `m` shifted left when it fits and shifted right with rounding otherwise; a
rounding carry into bit 24 moves to the exponent field by the addition. -/
def floatOfInt32 (v : Int) : Nat :=
  if v = 0 then 0
  else
    let sign := if v < 0 then 1 else 0
    let m := v.natAbs
    let e := floorLog2 32 m
    let sig :=
      if e ≤ 23 then m * 2 ^ (23 - e)
      else
        let q := m / 2 ^ (e - 23)
        let r := m % 2 ^ (e - 23)
        let half := 2 ^ (e - 24)
        if r > half ∨ (r = half ∧ q % 2 = 1) then q + 1 else q
    sign * 2 ^ 31 + (e + 127) * 2 ^ 23 + (sig - 2 ^ 23)

/-- The pointer `arg` that `load_scalar` selects for `name`; it stays
`nullptr`, which is never read, for a name other than `alpha` and `beta`. -/
def selectedArg (graphInfo : KernelGraphInvocation) (name : String) : Nat :=
  if name = "alpha" then graphInfo.alpha
  else if name = "beta" then graphInfo.beta
  else 0

/-- The type tag `argType` that `load_scalar` selects for `name`. -/
def selectedType (graphInfo : KernelGraphInvocation) (name : String) : DataType :=
  if name = "alpha" then graphInfo.alphaType
  else if name = "beta" then graphInfo.betaType
  else DataType.None

/-- The function `load_scalar`: marshals the scalar called `name` into `kArgs` according to
its type tag. The result is the outcome and the invocation after the call. -/
def load_scalar (graphInfo : KernelGraphInvocation) (name : String) :
    Outcome × KernelGraphInvocation :=
  let arg := selectedArg graphInfo name
  let argType := selectedType graphInfo name
  if argType = DataType.Float ∨ argType = DataType.BFloat16 then
    let value := readFloat arg
    (.ok, { graphInfo with kArgs := graphInfo.kArgs.updateValue name (.float value) })
  else if argType = DataType.Double then
    let value := readDouble arg
    (.ok, { graphInfo with kArgs := graphInfo.kArgs.updateValue name (.double value) })
  else if argType = DataType.ComplexFloat then
    let value := readComplexFloat arg
    (.ok, { graphInfo with
      kArgs := graphInfo.kArgs.updateValue name (.complexFloat value.1 value.2) })
  else if argType = DataType.ComplexDouble then
    let value := readComplexDouble arg
    (.ok, { graphInfo with
      kArgs := graphInfo.kArgs.updateValue name (.complexDouble value.1 value.2) })
  else if argType = DataType.Int32 then
    let value := readInt32 arg
    (.ok, { graphInfo with
      kArgs := graphInfo.kArgs.updateValue name (.float (floatOfInt32 value)) })
  else if argType = DataType.Half then
    let value := readFloat arg
    let kArgs := graphInfo.kArgs.updateValue name (.float value)
    if !graphInfo.isSourceKernel then
      let name_2 := name ++ "_2"
      (.ok, { graphInfo with kArgs := kArgs.updateValue name_2 (.float value) })
    else
      (.ok, { graphInfo with kArgs := kArgs })
  else
    (.thrown (" Type mismatch for Argument : " ++ name), graphInfo)

/-- The function `updateKernelArgsFuncCB`: marshals `alpha`, then `beta`; an exception
thrown by the first call leaves the second one out. -/
def updateKernelArgsFuncCB (graphInfo : KernelGraphInvocation) :
    Outcome × KernelGraphInvocation :=
  match load_scalar graphInfo "alpha" with
  | (.thrown what, g) => (.thrown what, g)
  | (.ok, g) => load_scalar g "beta"

/-- The type tags `load_scalar` marshals: `Float`, `BFloat16`, `Double`,
`ComplexFloat`, `ComplexDouble`, `Int32` and `Half`. -/
def DataType.supported : DataType → Bool
  | .Float => true
  | .BFloat16 => true
  | .Double => true
  | .ComplexFloat => true
  | .ComplexDouble => true
  | .Int32 => true
  | .Half => true
  | _ => false

/-- An invocation whose `alpha` and `beta` are tagged `Half`, bound to a kernel
that is not a source kernel, with the four slots bound to zero. -/
def halfInvocation : KernelGraphInvocation :=
  { alpha := 0x3FC00000, alphaType := DataType.Half
    beta := 0x40000000, betaType := DataType.Half
    isSourceKernel := false
    kArgs := ⟨[("alpha", .float 0), ("alpha_2", .float 0), ("beta", .float 0),
      ("beta_2", .float 0)]⟩ }

/-- The invocation `halfInvocation` bound to a source kernel. -/
def halfSourceInvocation : KernelGraphInvocation :=
  { halfInvocation with isSourceKernel := true }

/-- An invocation whose `alpha` is tagged `Half` on a kernel that is not a
source kernel and whose `beta` carries an unsupported tag. -/
def badBetaInvocation : KernelGraphInvocation :=
  { halfInvocation with betaType := DataType.Other 8 }

/-- An invocation whose `alpha` carries the tag `None`. -/
def badAlphaInvocation : KernelGraphInvocation :=
  { halfInvocation with alphaType := DataType.None }


/-- An invocation whose `alpha` points to the bytes `bits` and carries the tag
`ty`, whose `beta` points to the four bytes `FF FF FF FF` (the integer `-1`)
tagged `Int32`, with no update made yet. -/
def taggedInvocation (ty : DataType) (bits : Nat) : KernelGraphInvocation :=
  { alpha := bits, alphaType := ty
    beta := 0xFFFFFFFF, betaType := DataType.Int32
    isSourceKernel := true
    kArgs := ⟨[]⟩ }


/-- Modelled from the spec: the status `hipSuccess` of `hipError_t` (declared
in the HIP runtime headers, absent); a status is represented by its code and
every other code is a failure. -/
def hipSuccess : Nat := 0

/-- Modelled from the spec: `KernelInvocation` (declared in
`Tensile/KernelInvocation.hpp`, absent), the launch descriptor
`{kernelName, gridDims, blockDims, argumentBuffer, sharedMemoryBytes}`. -/
structure KernelInvocation where
  kernelName : String
  gridDims : Nat × Nat × Nat
  blockDims : Nat × Nat × Nat
  argumentBuffer : List Nat
  sharedMemoryBytes : Nat
deriving DecidableEq, Repr

/-- Modelled from the spec: `SolutionAdapter::launchKernels` (declared in the
header, its body in `HipSolutionAdapter.cpp` is absent). The invocations are
submitted to the stream in list order; submission stops at the first one whose
launch reports a failure, and that status is returned; when none fails the
result is success. `launch` is the status the single launch reports, given the
submissions already made on the stream; `stream` records every submission
attempt, the newest last. -/
def launchKernels (launch : List KernelInvocation → KernelInvocation → Nat) :
    List KernelInvocation → List KernelInvocation → Nat × List KernelInvocation
  | stream, [] => (hipSuccess, stream)
  | stream, kernel :: kernels =>
    let err := launch stream kernel
    if err ≠ hipSuccess then (err, stream ++ [kernel])
    else launchKernels launch (stream ++ [kernel]) kernels

/-- Every launch of `kernels`, submitted in order after `stream`, reports
success. -/
def allSucceed (launch : List KernelInvocation → KernelInvocation → Nat) :
    List KernelInvocation → List KernelInvocation → Prop
  | _, [] => True
  | stream, kernel :: kernels =>
    launch stream kernel = hipSuccess ∧ allSucceed launch (stream ++ [kernel]) kernels

/-- An invocation of the kernel called `name` on one work-group. -/
def invocationOf (name : String) : KernelInvocation :=
  { kernelName := name, gridDims := (1, 1, 1), blockDims := (64, 1, 1),
    argumentBuffer := [], sharedMemoryBytes := 0 }

/-- A driver on which the launch of the kernel `B` reports the status `719`
and every other launch succeeds. -/
def failsOnB (_stream : List KernelInvocation) (kernel : KernelInvocation) : Nat :=
  if kernel.kernelName = "B" then 719 else hipSuccess

/-! ### Lazy loading -/

/-- Modelled from the spec: a `CodeObjectModule`, the loaded representation of
one code-object file: the identifier of the file and the kernels it holds. -/
structure CodeObjectModule where
  file : String
  kernels : List String
deriving DecidableEq, Repr

/-- Modelled from the spec: the state of `SolutionAdapter` that kernel
resolution uses: the loaded modules `m_modules` (append-only), the
name-to-handle cache `m_kernels` (a handle is the index of the owning module),
the loaded-file set `m_loadedCOFiles`, and the architecture and directory
recorded by `initializeLazyLoading`, `none` while lazy loading is not armed. -/
structure SolutionAdapter where
  m_modules : List CodeObjectModule
  m_kernels : List (String × Nat)
  m_loadedCOFiles : Finset String
  lazyLoading : Option (String × String)

/-- Modelled from the spec: the collaborators of the lazy loader: the
code-object file identifier derived from the architecture and the kernel name,
and the content of the code-object files of a directory (the kernels a file
holds, `none` when reading or loading it fails). -/
structure Loader where
  coFileFor : String → String → String
  readCodeObject : String → String → Option (List String)

/-- How a kernel resolution ends: with a handle, with `KernelNotFoundError`,
or with `LoadError`. -/
inductive Resolved where
  | handle (h : Nat)
  | kernelNotFound
  | loadError
deriving DecidableEq, Repr

/-- Modelled from the spec: `initializeLazyLoading(architecture, codeObjectDir)`
(body absent) records the architecture and the directory and loads nothing. -/
def initializeLazyLoading (s : SolutionAdapter) (architecture codeObjectDir : String) :
    SolutionAdapter :=
  { s with lazyLoading := some (architecture, codeObjectDir) }

/-- Modelled from the spec: `loadCodeObjectFile(path)` (body absent) reads the
file, has the driver create a module and appends it to the store; `none` is a
`LoadError`. -/
def loadCodeObjectFile (env : Loader) (s : SolutionAdapter) (dir file : String) :
    Option SolutionAdapter :=
  match env.readCodeObject dir file with
  | none => none
  | some kernels => some { s with m_modules := s.m_modules ++ [⟨file, kernels⟩] }

/-- Modelled from the spec: the name lookup of `getKernel` (body absent): the
cached handle if there is one, otherwise the first loaded module holding the
name, whose handle is then cached. -/
def lookupKernel (s : SolutionAdapter) (name : String) : Resolved × SolutionAdapter :=
  match s.m_kernels.find? (fun p => p.1 = name) with
  | some p => (.handle p.2, s)
  | none =>
    match s.m_modules.findIdx? (fun m => decide (name ∈ m.kernels)) with
    | some h => (.handle h, { s with m_kernels := s.m_kernels ++ [(name, h)] })
    | none => (.kernelNotFound, s)

/-- Modelled from the spec: `getKernel(name)` (body absent), the resolution of
a kernel name. On a miss with lazy loading armed the expected code-object file
is derived from the name; it is loaded and added to the loaded-file set unless
it is in the set already; then the lookup is retried once. A failed load is
reported and adds nothing. -/
def getKernel (env : Loader) (s : SolutionAdapter) (name : String) :
    Resolved × SolutionAdapter :=
  match lookupKernel s name with
  | (.handle h, s1) => (.handle h, s1)
  | _ =>
    match s.lazyLoading with
    | none => (.kernelNotFound, s)
    | some (architecture, dir) =>
      let file := env.coFileFor architecture name
      if file ∈ s.m_loadedCOFiles then lookupKernel s name
      else
        match loadCodeObjectFile env s dir file with
        | none => (.loadError, s)
        | some s1 =>
          lookupKernel { s1 with m_loadedCOFiles := insert file s1.m_loadedCOFiles } name

/-- The state after resolving the names of `names` in order. -/
def resolveAll (env : Loader) (s : SolutionAdapter) (names : List String) : SolutionAdapter :=
  names.foldl (fun st name => (getKernel env st name).2) s

/-- The relation between an armed adapter `s0` and a later state `s`: the
modules of `s` are those of `s0` followed by modules created since, whose file
identifiers are pairwise distinct and are exactly the loaded-file set, and
lazy loading is armed as in `s0`. -/
def LazyInvariant (s0 s : SolutionAdapter) : Prop :=
  ∃ added : List CodeObjectModule,
    s.m_modules = s0.m_modules ++ added ∧
    (added.map (·.file)).Nodup ∧
    (added.map (·.file)).toFinset = s.m_loadedCOFiles ∧
    s.lazyLoading = s0.lazyLoading


/-- A loader for which the kernels `k1` and `k2` live in the file `co1`, every
other kernel in `co2`, and both files can be loaded. -/
def sampleLoader : Loader :=
  { coFileFor := fun _ name => if name = "k1" ∨ name = "k2" then "co1" else "co2"
    readCodeObject := fun _ file =>
      if file = "co1" then some ["k1", "k2"] else if file = "co2" then some ["k3"] else none }

/-- A fresh adapter armed for the architecture `gfx90a`. -/
def armedAdapter : SolutionAdapter :=
  initializeLazyLoading ⟨[], [], ∅, none⟩ "gfx90a" "/opt/lib"


end Tensile

namespace Cobalt

/-! ## Linear index -/

theorem numDims_eq_length (t : Tensor) (h : t.dimensions.length < UINT_MOD) :
    t.numDims = t.dimensions.length := by
  unfold Tensor.numDims
  exact Nat.mod_eq_of_lt h

theorem take_numDims (t : Tensor) (h : t.dimensions.length < UINT_MOD) :
    t.dimensions.take t.numDims = t.dimensions := by
  rw [numDims_eq_length t h, List.take_length]

/-- The loop adds the wrapped products, visited in order, to `serial`. -/
theorem getIndexLoop_eq (ds : List CobaltDimension) :
    ∀ (cs : List Nat) (serial : Nat), ds.length ≤ cs.length → serial < SIZE_MOD →
      getIndexLoop ds cs serial =
        some ((serial + (List.zipWith (fun d c => (c * d.stride) % UINT_MOD) ds cs).sum)
          % SIZE_MOD) := by
  induction ds with
  | nil =>
    intro cs serial _ hs
    simp [getIndexLoop, Nat.mod_eq_of_lt hs]
  | cons d ds ih =>
    intro cs serial hlen hs
    cases cs with
    | nil => simp at hlen
    | cons c cs =>
      have hlen2 : ds.length ≤ cs.length := by simpa using hlen
      have hpos : 0 < SIZE_MOD := by unfold SIZE_MOD; positivity
      rw [getIndexLoop, ih cs _ hlen2 (Nat.mod_lt _ hpos)]
      simp only [List.zipWith_cons_cons, List.sum_cons, Nat.mod_add_mod, Nat.add_assoc]

/-- A sum over zipped lists is the sum over the indices of the first list. -/
theorem zipWith_sum_eq_range (f : Nat → Nat → Nat) (ds : List CobaltDimension) :
    ∀ (cs : List Nat), ds.length ≤ cs.length →
      (List.zipWith (fun d c => f c d.stride) ds cs).sum =
        ∑ i in Finset.range ds.length,
          f (cs.getD i 0) (((ds[i]?).map (·.stride)).getD 0) := by
  induction ds with
  | nil => intro cs _; simp
  | cons d ds ih =>
    intro cs hlen
    cases cs with
    | nil => simp at hlen
    | cons c cs =>
      have hlen2 : ds.length ≤ cs.length := by simpa using hlen
      rw [List.length_cons, Finset.sum_range_succ']
      simp only [List.zipWith_cons_cons, List.sum_cons, ih cs hlen2, List.getD_cons_succ,
        List.getElem?_cons_succ, List.getD_cons_zero, List.getElem?_cons_zero, Option.map_some',
        Option.getD_some]
      omega

/-- The result of `getIndex` as a sum over the zipped dimension and coordinate
lists. -/
theorem getIndex_eq_zip (t : Tensor) (coords : List Nat)
    (hn : t.dimensions.length < UINT_MOD) (hc : t.dimensions.length ≤ coords.length) :
    t.getIndex coords =
      some ((List.zipWith (fun d c => (c * d.stride) % UINT_MOD) t.dimensions coords).sum
        % SIZE_MOD) := by
  unfold Tensor.getIndex
  rw [take_numDims t hn, getIndexLoop_eq t.dimensions coords 0 hc (by unfold SIZE_MOD; positivity),
    Nat.zero_add]

/-- C1 (amended): for a shape with `n` dimensions and a coordinate vector with
at least `n` entries, `getIndex` returns the sum over `i < n` of
`coords[i] * stride[i]`, each product reduced modulo `2 ^ 32` and the sum
reduced modulo `2 ^ 64`; sizes and the entries of `coords` past `n - 1` do not
occur in it, and the result for a shape with no dimension is `0`. -/
theorem getIndex_eq_wrapped_sum :
    (∀ (t : Tensor) (coords : List Nat), t.dimensions.length < UINT_MOD →
      t.dimensions.length ≤ coords.length →
      t.getIndex coords =
        some ((∑ i in Finset.range t.dimensions.length,
          (coords.getD i 0 * ((t.dimensions[i]?).map (·.stride)).getD 0) % UINT_MOD)
          % SIZE_MOD)) ∧
    (∀ (t : Tensor) (coords : List Nat), t.dimensions = [] → t.getIndex coords = some 0) := by
  refine ⟨?_, ?_⟩
  · intro t coords hn hc
    rw [getIndex_eq_zip t coords hn hc,
      zipWith_sum_eq_range (fun c s => (c * s) % UINT_MOD) t.dimensions coords hc]
  · intro t coords ht
    simp [Tensor.getIndex, ht, getIndexLoop]

/-- C1 witness: with sizes `(3, 2)` and strides `(1, 3)`, the coordinates
`(2, 1)` followed by an ignored entry are addressed at offset `5`. -/
theorem getIndex_eq_wrapped_sum_witness :
    smallMatrix.dimensions.length < UINT_MOD ∧
    smallMatrix.dimensions.length ≤ [2, 1, 9].length ∧
    smallMatrix.getIndex [2, 1, 9] = some 5 :=
  ⟨by decide, by decide,
    (getIndex_eq_wrapped_sum.1 smallMatrix [2, 1, 9] (by decide) (by decide)).trans (by decide)⟩

/-- C1 counterexample: with stride `65536`, size `65537` and the in-bounds
coordinate `65536` the code returns `0`, while the sum of
`coords[i] * stride[i]` is `2 ^ 32`. -/
theorem getIndex_ne_sum_counterexample :
    wideStride.wellFormed ∧ coordsBelow wideStride.dimensions [65536] ∧
    wideStride.getIndex [65536] = some 0 ∧
    linearIndexSpec wideStride [65536] = 4294967296 ∧
    wideStride.getIndex [65536] ≠ some (linearIndexSpec wideStride [65536]) := by
  refine ⟨by decide, by decide, by decide, by decide, by decide⟩

/-! ## Footprint -/

/-- The loop keeps the maximum of `size` and the wrapped products. -/
theorem numElementsLoop_eq (ds : List CobaltDimension) :
    ∀ size : Nat,
      numElementsLoop ds size =
        max size ((ds.map (fun d => (d.size * d.stride) % UINT_MOD)).foldr max 0) := by
  induction ds with
  | nil => intro size; simp [numElementsLoop]
  | cons d ds ih =>
    intro size
    rw [numElementsLoop]
    simp only [ih, List.map_cons, List.foldr_cons]
    split <;> omega

/-- C2 (amended): `numElements` returns the maximum over the dimensions of
`size[i] * stride[i]` reduced modulo `2 ^ 32`, which is `0` for a shape with no
dimension, and this is not the product of the sizes. -/
theorem numElements_eq_wrapped_max :
    (∀ t : Tensor, t.dimensions.length < UINT_MOD →
      t.numElements =
        (t.dimensions.map (fun d => (d.size * d.stride) % UINT_MOD)).foldr max 0) ∧
    (∀ t : Tensor, t.dimensions = [] → t.numElements = 0) ∧
    (overlapped.wellFormed ∧ overlapped.numElements = 3 ∧
      sizeProduct overlapped.dimensions = 6) := by
  refine ⟨?_, ?_, by decide, by decide, by decide⟩
  · intro t hn
    unfold Tensor.numElements
    rw [take_numDims t hn, numElementsLoop_eq]
    simp
  · intro t ht
    simp [Tensor.numElements, ht, numElementsLoop]

/-- C2 witness: sizes `(3, 2)` with strides `(1, 3)` have footprint `6`. -/
theorem numElements_eq_wrapped_max_witness :
    smallMatrix.dimensions.length < UINT_MOD ∧ smallMatrix.numElements = 6 :=
  ⟨by decide, (numElements_eq_wrapped_max.1 smallMatrix (by decide)).trans (by decide)⟩

/-- C2 counterexample: with size `65536` and stride `65536` the code returns
`0`, while the maximum of `size[i] * stride[i]` is `2 ^ 32`. -/
theorem numElements_ne_max_counterexample :
    wideRow.wellFormed ∧
    wideRow.numElements = 0 ∧
    footprintSpec wideRow = 4294967296 ∧
    wideRow.numElements ≠ footprintSpec wideRow := by
  refine ⟨by decide, by decide, by decide, by decide⟩

/-! ## Contiguous layouts -/

theorem sizeProduct_cons (d : CobaltDimension) (ds : List CobaltDimension) :
    sizeProduct (d :: ds) = d.size * sizeProduct ds := by
  simp [sizeProduct]

theorem sizeProduct_pos (ds : List CobaltDimension) (hs : ∀ d ∈ ds, 1 ≤ d.size) :
    1 ≤ sizeProduct ds := by
  induction ds with
  | nil => simp [sizeProduct]
  | cons d ds ih =>
    rw [sizeProduct_cons]
    have h1 : 1 ≤ d.size := hs d (List.mem_cons_self _ _)
    have h2 : 1 ≤ sizeProduct ds := ih (fun e he => hs e (List.mem_cons_of_mem _ he))
    exact Nat.mul_pos h1 h2

/-- The indexed statement of contiguity gives the chained one. -/
theorem strideChain_of_indexed (ds : List CobaltDimension) :
    ∀ p : Nat,
      (∀ i < ds.length, (ds[i]?).map (·.stride) = some (p * sizeProduct (ds.take i))) →
      strideChain p ds := by
  induction ds with
  | nil => intro p _; trivial
  | cons d ds ih =>
    intro p h
    refine ⟨?_, ih (p * d.size) ?_⟩
    · have h0 := h 0 (by simp)
      simpa [sizeProduct] using h0
    · intro i hi
      have hi1 := h (i + 1) (by simpa using hi)
      simpa [sizeProduct_cons, Nat.mul_assoc] using hi1

theorem strideChain_of_isContiguous (t : Tensor) (hc : t.isContiguous) :
    strideChain 1 t.dimensions := by
  apply strideChain_of_indexed
  intro i hi
  rcases Nat.eq_zero_or_pos i with h0 | hpos
  · subst h0
    simpa [sizeProduct] using hc.1
  · simpa using hc.2 i hi hpos

theorem ne_nil_of_isContiguous (t : Tensor) (hc : t.isContiguous) : t.dimensions ≠ [] := by
  intro h
  have h1 := hc.1
  simp [h] at h1

/-- On a chained layout with positive sizes and no overflow, the maximum of the
wrapped products is the product of the sizes times the starting stride. -/
theorem chain_max_eq (ds : List CobaltDimension) :
    ∀ p : Nat, strideChain p ds → (∀ d ∈ ds, 1 ≤ d.size) → ds ≠ [] →
      p * sizeProduct ds < UINT_MOD →
      (ds.map (fun d => (d.size * d.stride) % UINT_MOD)).foldr max 0 = p * sizeProduct ds := by
  induction ds with
  | nil => intro p _ _ h; exact absurd rfl h
  | cons d ds ih =>
    intro p hch hs _ hlt
    obtain ⟨hst, hch2⟩ := hch
    have hs2 : ∀ e ∈ ds, 1 ≤ e.size := fun e he => hs e (List.mem_cons_of_mem _ he)
    have hsp : 1 ≤ sizeProduct ds := sizeProduct_pos ds hs2
    rw [sizeProduct_cons, ← Nat.mul_assoc] at hlt
    have hle : p * d.size ≤ p * d.size * sizeProduct ds := Nat.le_mul_of_pos_right _ hsp
    have hnow : (d.size * d.stride) % UINT_MOD = p * d.size := by
      rw [hst, Nat.mul_comm]
      exact Nat.mod_eq_of_lt (lt_of_le_of_lt hle hlt)
    simp only [List.map_cons, List.foldr_cons, hnow, sizeProduct_cons, ← Nat.mul_assoc]
    by_cases hnil : ds = []
    · subst hnil
      simp [sizeProduct]
    · rw [ih (p * d.size) hch2 hs2 hnil hlt]
      exact max_eq_right hle

/-- The footprint of a contiguous shape with positive sizes and fewer than
`2 ^ 32` elements is its element count. -/
theorem numElements_contiguous (t : Tensor) (hn : t.dimensions.length < UINT_MOD)
    (hc : t.isContiguous) (hs : t.sizesPositive)
    (hp : sizeProduct t.dimensions < UINT_MOD) :
    t.numElements = sizeProduct t.dimensions := by
  unfold Tensor.numElements
  rw [take_numDims t hn, numElementsLoop_eq, Nat.zero_max,
    chain_max_eq t.dimensions 1 (strideChain_of_isContiguous t hc) hs
      (ne_nil_of_isContiguous t hc) (by simpa using hp), Nat.one_mul]

/-- C3 (amended): for every contiguous row-major-equivalent shape whose sizes
are all at least `1` and whose product of sizes is below `2 ^ 32`,
`numElements` equals the product of all sizes. -/
theorem numElements_contiguous_eq_product (t : Tensor)
    (hn : t.dimensions.length < UINT_MOD) (hc : t.isContiguous) (hs : t.sizesPositive)
    (hp : sizeProduct t.dimensions < UINT_MOD) :
    t.numElements = sizeProduct t.dimensions :=
  numElements_contiguous t hn hc hs hp

/-- C3 witness: sizes `(3, 2)` with strides `(1, 3)` have footprint `6`. -/
theorem numElements_contiguous_eq_product_witness :
    smallMatrix.dimensions.length < UINT_MOD ∧ smallMatrix.isContiguous ∧
    smallMatrix.sizesPositive ∧ sizeProduct smallMatrix.dimensions < UINT_MOD ∧
    smallMatrix.numElements = sizeProduct smallMatrix.dimensions :=
  ⟨by decide, by decide, by decide, by decide,
    numElements_contiguous_eq_product smallMatrix (by decide) (by decide) (by decide)
      (by decide)⟩

/-- C3 counterexample: the contiguous shape with sizes `(2, 0)` has footprint
`2` and size product `0`; the contiguous shape with sizes `(65536, 65536)` has
footprint `65536` and size product `2 ^ 32`. -/
theorem numElements_contiguous_counterexample :
    (emptySlab.wellFormed ∧ emptySlab.isContiguous ∧ emptySlab.numElements = 2 ∧
      sizeProduct emptySlab.dimensions = 0) ∧
    (hugeMatrix.wellFormed ∧ hugeMatrix.isContiguous ∧ hugeMatrix.sizesPositive ∧
      hugeMatrix.numElements = 65536 ∧ sizeProduct hugeMatrix.dimensions = 4294967296) := by
  refine ⟨⟨by decide, by decide, by decide, by decide⟩,
    ⟨by decide, by decide, by decide, by decide, by decide⟩⟩


theorem coordsBelow_cons (d : CobaltDimension) (ds : List CobaltDimension) (c : Nat)
    (cs : List Nat) (h : coordsBelow (d :: ds) (c :: cs)) :
    c < d.size ∧ coordsBelow ds cs := by
  obtain ⟨hlen, hall⟩ := h
  refine ⟨by simpa using hall 0 (by simp), by simpa using hlen, ?_⟩
  intro i hi
  simpa using hall (i + 1) (by simpa using hi)

/-- On a chained layout with positive sizes, the addressed offset of in-bounds
coordinates stays below the element count. -/
theorem chain_sum_lt (ds : List CobaltDimension) :
    ∀ (p : Nat) (cs : List Nat), strideChain p ds → (∀ d ∈ ds, 1 ≤ d.size) →
      coordsBelow ds cs →
      (List.zipWith (fun d c => (c * d.stride) % UINT_MOD) ds cs).sum + p
        ≤ p * sizeProduct ds := by
  induction ds with
  | nil => intro p cs _ _ _; simp [sizeProduct]
  | cons d ds ih =>
    intro p cs hch hs hcb
    cases cs with
    | nil => exact absurd hcb.1 (by simp)
    | cons c cs =>
      obtain ⟨hst, hch2⟩ := hch
      obtain ⟨hc, hcb2⟩ := coordsBelow_cons d ds c cs hcb
      have hs2 : ∀ e ∈ ds, 1 ≤ e.size := fun e he => hs e (List.mem_cons_of_mem _ he)
      have hih := ih (p * d.size) cs hch2 hs2 hcb2
      have hmod : (c * d.stride) % UINT_MOD ≤ c * p := by
        rw [hst]; exact Nat.mod_le _ _
      have hcp : c * p + p ≤ p * d.size := by
        have : (c + 1) * p ≤ d.size * p := Nat.mul_le_mul_right p hc
        calc c * p + p = (c + 1) * p := by ring
          _ ≤ d.size * p := this
          _ = p * d.size := Nat.mul_comm _ _
      simp only [List.zipWith_cons_cons, List.sum_cons, sizeProduct_cons, ← Nat.mul_assoc]
      omega

/-- C4 (amended): for every contiguous row-major-equivalent shape whose sizes
are all at least `1` and whose product of sizes is below `2 ^ 32`, and every
coordinate vector with `coords[i] < size[i]` for all `i`, `getIndex` returns an
offset strictly below `numElements`. -/
theorem getIndex_lt_numElements_contiguous (t : Tensor) (coords : List Nat)
    (hn : t.dimensions.length < UINT_MOD) (hc : t.isContiguous) (hs : t.sizesPositive)
    (hp : sizeProduct t.dimensions < UINT_MOD) (hb : coordsBelow t.dimensions coords) :
    ∃ idx, t.getIndex coords = some idx ∧ idx < t.numElements := by
  refine ⟨_, getIndex_eq_zip t coords hn hb.1, ?_⟩
  rw [numElements_contiguous t hn hc hs hp]
  have hsum := chain_sum_lt t.dimensions 1 coords (strideChain_of_isContiguous t hc) hs hb
  rw [Nat.one_mul] at hsum
  exact lt_of_le_of_lt (Nat.mod_le _ _) (by omega)

/-- C4 witness: in the shape with sizes `(3, 2)` and strides `(1, 3)` the last
element `(2, 1)` is addressed below the footprint. -/
theorem getIndex_lt_numElements_contiguous_witness :
    smallMatrix.dimensions.length < UINT_MOD ∧ smallMatrix.isContiguous ∧
    smallMatrix.sizesPositive ∧ sizeProduct smallMatrix.dimensions < UINT_MOD ∧
    coordsBelow smallMatrix.dimensions [2, 1] ∧
    ∃ idx, smallMatrix.getIndex [2, 1] = some idx ∧ idx < smallMatrix.numElements :=
  ⟨by decide, by decide, by decide, by decide, by decide,
    getIndex_lt_numElements_contiguous smallMatrix [2, 1] (by decide) (by decide) (by decide)
      (by decide) (by decide)⟩

/-- C4 counterexample: in the contiguous shape with sizes `(65536, 65536)` and
strides `(1, 65536)` the in-bounds coordinates `(0, 1)` are addressed at
`65536`, which is not below the footprint `65536`. -/
theorem getIndex_lt_numElements_counterexample :
    hugeMatrix.wellFormed ∧ hugeMatrix.isContiguous ∧ hugeMatrix.sizesPositive ∧
    coordsBelow hugeMatrix.dimensions [0, 1] ∧
    hugeMatrix.getIndex [0, 1] = some 65536 ∧ hugeMatrix.numElements = 65536 ∧
    ¬ ∃ idx, hugeMatrix.getIndex [0, 1] = some idx ∧ idx < hugeMatrix.numElements := by
  refine ⟨by decide, by decide, by decide, by decide, by decide, by decide, ?_⟩
  rintro ⟨idx, h1, h2⟩
  have e1 : hugeMatrix.getIndex [0, 1] = some 65536 := by decide
  have e2 : hugeMatrix.numElements = 65536 := by decide
  rw [e1] at h1
  rw [e2] at h2
  cases h1
  omega


/-! ## Canonical dimension order -/

theorem dimensionLess_strictTotal : StrictTotal dimensionLess := by
  refine ⟨?_, ?_, ?_⟩
  · intro a
    simp [dimensionLess]
  · intro a b c hab hbc
    simp only [dimensionLess] at hab hbc ⊢
    split_ifs at hab hbc ⊢ <;> first | rfl | omega
  · intro a b hne
    have : a.stride ≠ b.stride ∨ a.size ≠ b.size := by
      by_contra h
      push_neg at h
      apply hne
      cases a; cases b; simp_all
    simp only [dimensionLess]
    split_ifs <;> first | rfl | (exfalso; omega) | simp

theorem StrictTotal.asymm {lt : CobaltDimension → CobaltDimension → Bool}
    (h : StrictTotal lt) {a b : CobaltDimension} (hab : lt a b = true) : lt b a = false := by
  cases hba : lt b a with
  | false => rfl
  | true =>
    have := h.2.1 a b a hab hba
    rw [h.1 a] at this
    exact absurd this (by simp)

theorem orderedInsert_perm (lt : CobaltDimension → CobaltDimension → Bool)
    (x : CobaltDimension) (l : List CobaltDimension) :
    (orderedInsert lt x l).Perm (x :: l) := by
  induction l with
  | nil => simp [orderedInsert]
  | cons y ys ih =>
    rw [orderedInsert]
    split
    · exact List.Perm.refl _
    · exact (List.Perm.cons y ih).trans (List.Perm.swap x y ys)

theorem stdSort_perm (lt : CobaltDimension → CobaltDimension → Bool)
    (l : List CobaltDimension) : (stdSort lt l).Perm l := by
  induction l with
  | nil => simp [stdSort]
  | cons x xs ih =>
    have : stdSort lt (x :: xs) = orderedInsert lt x (stdSort lt xs) := rfl
    rw [this]
    exact (orderedInsert_perm lt x _).trans (List.Perm.cons x ih)

theorem orderedInsert_sorted {lt : CobaltDimension → CobaltDimension → Bool}
    (h : StrictTotal lt) (x : CobaltDimension) (l : List CobaltDimension)
    (hl : SortedBy lt l) : SortedBy lt (orderedInsert lt x l) := by
  induction l with
  | nil => simp [orderedInsert, SortedBy]
  | cons y ys ih =>
    unfold SortedBy at hl ih ⊢
    rw [List.pairwise_cons] at hl
    rw [orderedInsert]
    split
    · rename_i hxy
      refine List.Pairwise.cons ?_ (List.Pairwise.cons hl.1 hl.2)
      intro z hz
      rcases List.mem_cons.1 hz with rfl | hz
      · exact h.asymm hxy
      · cases hzx : lt z x with
        | false => rfl
        | true =>
          have := h.2.1 z x y hzx hxy
          rw [hl.1 z hz] at this
          exact absurd this (by simp)
    · rename_i hxy
      refine List.Pairwise.cons ?_ (ih hl.2)
      intro z hz
      rcases List.mem_cons.1 ((orderedInsert_perm lt x ys).subset hz) with rfl | hz
      · simpa using hxy
      · exact hl.1 z hz

theorem stdSort_sorted {lt : CobaltDimension → CobaltDimension → Bool}
    (h : StrictTotal lt) (l : List CobaltDimension) : SortedBy lt (stdSort lt l) := by
  induction l with
  | nil => simp [stdSort, SortedBy]
  | cons x xs ih => exact orderedInsert_sorted h x _ ih

/-- Under a strict total order any sorted rearrangement of `l` is the one
`stdSort` returns. -/
theorem stdSort_unique {lt : CobaltDimension → CobaltDimension → Bool}
    (h : StrictTotal lt) (l l' : List CobaltDimension)
    (hs : SortedBy lt l') (hp : l'.Perm l) : l' = stdSort lt l := by
  haveI : IsAntisymm CobaltDimension (fun a b => lt b a = false) :=
    ⟨fun a b hab hba => by
      by_contra hne
      rcases h.2.2 a b hne with h1 | h1
      · rw [hba] at h1; exact absurd h1 (by simp)
      · rw [hab] at h1; exact absurd h1 (by simp)⟩
  exact List.eq_of_perm_of_sorted (hp.trans (stdSort_perm lt l).symm) hs (stdSort_sorted h l)

theorem dimensionEq_iff (a b : CobaltDimension) : dimensionEq a b = true ↔ a = b := by
  cases a; cases b
  simp [dimensionEq]

theorem stdFind_mem (l : List CobaltDimension) (v : CobaltDimension) (hv : v ∈ l) :
    stdFind l v < l.length ∧ l[stdFind l v]? = some v := by
  induction l with
  | nil => simp at hv
  | cons d ds ih =>
    rw [stdFind]
    split
    · rename_i hd
      simp [(dimensionEq_iff d v).1 hd]
    · rename_i hd
      have hv2 : v ∈ ds := by
        rcases List.mem_cons.1 hv with rfl | h
        · exact absurd ((dimensionEq_iff v v).2 rfl) hd
        · exact h
      obtain ⟨h1, h2⟩ := ih hv2
      exact ⟨by simpa using h1, by simpa using h2⟩


theorem sortDimensions_fst (lt : CobaltDimension → CobaltDimension → Bool) (t : Tensor) :
    (t.sortDimensions lt).1 = { t with dimensions := stdSort lt t.dimensions } := rfl

theorem sortDimensions_snd (lt : CobaltDimension → CobaltDimension → Bool) (t : Tensor)
    (hn : t.dimensions.length < UINT_MOD) :
    (t.sortDimensions lt).2 = t.dimensions.map (fun value => stdFind (stdSort lt t.dimensions) value) := by
  have hlen : (stdSort lt t.dimensions).length = t.dimensions.length :=
    (stdSort_perm lt t.dimensions).length_eq
  have hnum : Tensor.numDims { t with dimensions := stdSort lt t.dimensions } =
      t.dimensions.length := by
    unfold Tensor.numDims
    simp only [hlen]
    exact Nat.mod_eq_of_lt hn
  unfold Tensor.sortDimensions
  simp only [hnum, List.take_length]
  apply List.map_congr_left
  intro v hv
  have hfound := (stdFind_mem (stdSort lt t.dimensions) v ((stdSort_perm lt t.dimensions).mem_iff.2 hv)).1
  exact Nat.mod_eq_of_lt (by omega)

/-- C5: after `sortDimensions` the dimension sequence is sorted under the
dimension order and is a rearrangement of the sequence before the call, the
data-type tag is unchanged, and the returned vector has one entry per
dimension with `newDimensions[order[i]] = oldDimensions[i]`. -/
theorem sortDimensions_sorted_rearrangement
    (lt : CobaltDimension → CobaltDimension → Bool) (hlt : StrictTotal lt) (t : Tensor)
    (hn : t.dimensions.length < UINT_MOD) :
    SortedBy lt (t.sortDimensions lt).1.dimensions ∧
    (t.sortDimensions lt).1.dimensions.Perm t.dimensions ∧
    (t.sortDimensions lt).1.dataType = t.dataType ∧
    (t.sortDimensions lt).2.length = t.dimensions.length ∧
    ∀ i < t.dimensions.length, ∃ o,
      (t.sortDimensions lt).2[i]? = some o ∧
      (t.sortDimensions lt).1.dimensions[o]? = t.dimensions[i]? := by
  refine ⟨stdSort_sorted hlt t.dimensions, stdSort_perm lt t.dimensions, rfl, ?_, ?_⟩
  · rw [sortDimensions_snd lt t hn, List.length_map]
  · intro i hi
    refine ⟨stdFind (stdSort lt t.dimensions) t.dimensions[i], ?_, ?_⟩
    · rw [sortDimensions_snd lt t hn]
      simp [hi]
    · rw [sortDimensions_fst]
      have hmem : t.dimensions[i] ∈ stdSort lt t.dimensions :=
        (stdSort_perm lt t.dimensions).mem_iff.2 (List.getElem_mem hi)
      rw [(stdFind_mem _ _ hmem).2, List.getElem?_eq_getElem hi]

/-- C5 witness: three dimensions in ascending stride are reversed by the sort
under descending stride, and the returned vector is `[2, 1, 0]`. -/
theorem sortDimensions_sorted_rearrangement_witness :
    StrictTotal dimensionLess ∧ ascending.dimensions.length < UINT_MOD ∧
    (ascending.sortDimensions dimensionLess).2 = [2, 1, 0] ∧
    (SortedBy dimensionLess (ascending.sortDimensions dimensionLess).1.dimensions ∧
    (ascending.sortDimensions dimensionLess).1.dimensions.Perm ascending.dimensions ∧
    (ascending.sortDimensions dimensionLess).1.dataType = ascending.dataType ∧
    (ascending.sortDimensions dimensionLess).2.length = ascending.dimensions.length ∧
    ∀ i < ascending.dimensions.length, ∃ o,
      (ascending.sortDimensions dimensionLess).2[i]? = some o ∧
      (ascending.sortDimensions dimensionLess).1.dimensions[o]? = ascending.dimensions[i]?) :=
  ⟨dimensionLess_strictTotal, by decide, by decide,
    sortDimensions_sorted_rearrangement dimensionLess dimensionLess_strictTotal ascending
      (by decide)⟩

/-- C6 (the code at the failing input): for a shape made of two equal
dimensions, whatever the comparison, `sortDimensions` returns `[0, 0]`; the
index `1` is absent and the index `0` occurs twice. For the contiguous shape
with sizes `(1, 1, 4)` it returns `[1, 1, 0]` under descending stride. -/
theorem sortDimensions_equal_pair (lt : CobaltDimension → CobaltDimension → Bool)
    (ty : Nat) (d : CobaltDimension) :
    (Tensor.sortDimensions lt ⟨ty, [d, d]⟩).2 = [0, 0] ∧
    1 ∉ (Tensor.sortDimensions lt ⟨ty, [d, d]⟩).2 ∧
    (Tensor.sortDimensions lt ⟨ty, [d, d]⟩).2.count 0 = 2 ∧
    (thinSlab.wellFormed ∧ (thinSlab.sortDimensions dimensionLess).2 = [1, 1, 0]) := by
  have h : (Tensor.sortDimensions lt ⟨ty, [d, d]⟩).2 = [0, 0] := by
    have hs : stdSort lt [d, d] = [d, d] := by
      simp only [stdSort, List.foldr, orderedInsert]
      split <;> rfl
    simp [Tensor.sortDimensions, hs, Tensor.numDims, stdFind, UINT_MOD,
      (dimensionEq_iff d d).2 rfl]
  rw [h]
  exact ⟨rfl, by decide, by decide, by decide, by decide⟩

/-- C7 (the code at the failing input): when `a` is less than `b`, the shape
with dimensions `[a, b, b, a]` is not sorted, yet `sortDimensions` returns
`[0, 2, 2, 0]`, which satisfies `P[P[i]] = P[i]` for every `i`. -/
theorem sortDimensions_idempotent_unsorted
    (lt : CobaltDimension → CobaltDimension → Bool) (hlt : StrictTotal lt)
    (ty : Nat) (a b : CobaltDimension) (hab : lt a b = true) :
    (Tensor.sortDimensions lt ⟨ty, [a, b, b, a]⟩).2 = [0, 2, 2, 0] ∧
    orderIdempotent (Tensor.sortDimensions lt ⟨ty, [a, b, b, a]⟩).2 ∧
    ¬ SortedBy lt [a, b, b, a] := by
  have hba : lt b a = false := hlt.asymm hab
  have hne : a ≠ b := by
    rintro rfl
    rw [hlt.1 a] at hab
    exact absurd hab (by simp)
  have h : (Tensor.sortDimensions lt ⟨ty, [a, b, b, a]⟩).2 = [0, 2, 2, 0] := by
    have hs : stdSort lt [a, b, b, a] = [a, a, b, b] := by
      simp [stdSort, orderedInsert, hab, hba, hlt.1 a, hlt.1 b]
    have hneq : dimensionEq a b = false := by
      cases hq : dimensionEq a b with
      | false => rfl
      | true => exact absurd ((dimensionEq_iff a b).1 hq) hne
    simp [Tensor.sortDimensions, hs, Tensor.numDims, stdFind, UINT_MOD, hneq,
      (dimensionEq_iff a a).2 rfl, (dimensionEq_iff b b).2 rfl]
  refine ⟨h, ?_, ?_⟩
  · rw [h]; decide
  · intro hs
    unfold SortedBy at hs
    have := (List.pairwise_cons.1 (List.pairwise_cons.1 hs).2).1 a (by simp)
    rw [hab] at this
    exact absurd this (by simp)

/-- C7 witness: under descending stride the shape with strides `(2, 1, 1, 2)`
and sizes `1` is unsorted and gets the idempotent vector `[0, 2, 2, 0]`. -/
theorem sortDimensions_idempotent_unsorted_witness :
    StrictTotal dimensionLess ∧ dimensionLess ⟨2, 1⟩ ⟨1, 1⟩ = true ∧
    (mirrored.sortDimensions dimensionLess).2 = [0, 2, 2, 0] ∧
    orderIdempotent (mirrored.sortDimensions dimensionLess).2 ∧
    ¬ SortedBy dimensionLess mirrored.dimensions :=
  ⟨dimensionLess_strictTotal, by decide,
    sortDimensions_idempotent_unsorted dimensionLess dimensionLess_strictTotal 0
      ⟨2, 1⟩ ⟨1, 1⟩ (by decide)⟩


/-! ## Shape comparison -/

theorem lessLoop_irrefl {lt : CobaltDimension → CobaltDimension → Bool}
    (h : StrictTotal lt) (l : List CobaltDimension) : lessLoop lt l l = false := by
  induction l with
  | nil => rfl
  | cons a as ih => simp [lessLoop, h.1 a, ih]

theorem lessLoop_cons_iff {lt : CobaltDimension → CobaltDimension → Bool}
    (h : StrictTotal lt) (a b : CobaltDimension) (as bs : List CobaltDimension) :
    lessLoop lt (a :: as) (b :: bs) = true ↔
      lt a b = true ∨ (a = b ∧ lessLoop lt as bs = true) := by
  rw [lessLoop]
  by_cases hab : lt a b = true
  · simp [hab]
  · by_cases hba : lt b a = true
    · have hne : a ≠ b := by
        rintro rfl
        rw [h.1 a] at hba
        exact absurd hba (by simp)
      simp [hab, hba, hne]
    · have heq : a = b := by
        by_contra hne
        rcases h.2.2 a b hne with h1 | h1
        · exact hab h1
        · exact hba h1
      subst heq
      simp [h.1 a]

theorem lessLoop_trans {lt : CobaltDimension → CobaltDimension → Bool}
    (h : StrictTotal lt) (l1 : List CobaltDimension) :
    ∀ l2 l3 : List CobaltDimension,
      lessLoop lt l1 l2 = true → lessLoop lt l2 l3 = true → lessLoop lt l1 l3 = true := by
  induction l1 with
  | nil => intro l2 l3 h12 _; simp [lessLoop] at h12
  | cons a as ih =>
    intro l2 l3 h12 h23
    cases l2 with
    | nil => simp [lessLoop] at h12
    | cons b bs =>
      cases l3 with
      | nil => simp [lessLoop] at h23
      | cons c cs =>
        rw [lessLoop_cons_iff h] at h12 h23 ⊢
        rcases h12 with hab | ⟨rfl, hrest1⟩
        · rcases h23 with hbc | ⟨rfl, _⟩
          · exact Or.inl (h.2.1 a b c hab hbc)
          · exact Or.inl hab
        · rcases h23 with hbc | ⟨rfl, hrest2⟩
          · exact Or.inl hbc
          · exact Or.inr ⟨rfl, ih bs cs hrest1 hrest2⟩

theorem lessLoop_total {lt : CobaltDimension → CobaltDimension → Bool}
    (h : StrictTotal lt) (l1 : List CobaltDimension) :
    ∀ l2 : List CobaltDimension, l1.length = l2.length → l1 ≠ l2 →
      lessLoop lt l1 l2 = true ∨ lessLoop lt l2 l1 = true := by
  induction l1 with
  | nil =>
    intro l2 hlen hne
    cases l2 with
    | nil => exact absurd rfl hne
    | cons b bs => simp at hlen
  | cons a as ih =>
    intro l2 hlen hne
    cases l2 with
    | nil => simp at hlen
    | cons b bs =>
      rw [lessLoop_cons_iff h, lessLoop_cons_iff h]
      by_cases hab : a = b
      · subst hab
        have hne2 : as ≠ bs := fun e => hne (by rw [e])
        rcases ih bs (by simpa using hlen) hne2 with h1 | h1
        · exact Or.inl (Or.inr ⟨rfl, h1⟩)
        · exact Or.inr (Or.inr ⟨rfl, h1⟩)
      · rcases h.2.2 a b hab with h1 | h1
        · exact Or.inl (Or.inl h1)
        · exact Or.inr (Or.inl h1)

/-- The loop is true exactly when the first differing position is decided by
the dimension order. -/
theorem lessLoop_iff_first_diff {lt : CobaltDimension → CobaltDimension → Bool}
    (h : StrictTotal lt) (l1 : List CobaltDimension) :
    ∀ l2 : List CobaltDimension,
      lessLoop lt l1 l2 = true ↔
        ∃ (i : Nat) (x y : CobaltDimension), (∀ j < i, l1[j]? = l2[j]?) ∧ l1[i]? = some x ∧
          l2[i]? = some y ∧
          lt x y = true := by
  induction l1 with
  | nil =>
    intro l2
    simp [lessLoop]
  | cons a as ih =>
    intro l2
    cases l2 with
    | nil => simp [lessLoop]
    | cons b bs =>
      rw [lessLoop_cons_iff h, ih bs]
      constructor
      · rintro (hab | ⟨rfl, i, x, y, hpre, hx, hy, hxy⟩)
        · exact ⟨0, a, b, by simp, by simp, by simp, hab⟩
        · refine ⟨i + 1, x, y, ?_, by simpa using hx, by simpa using hy, hxy⟩
          intro j hj
          cases j with
          | zero => simp
          | succ j => simpa using hpre j (by omega)
      · rintro ⟨i, x, y, hpre, hx, hy, hxy⟩
        cases i with
        | zero =>
          simp at hx hy
          subst hx hy
          exact Or.inl hxy
        | succ i =>
          have h0 := hpre 0 (by omega)
          simp at h0
          refine Or.inr ⟨h0, i, x, y, ?_, by simpa using hx, by simpa using hy, hxy⟩
          intro j hj
          simpa using hpre (j + 1) (by omega)

/-- The comparison `Tensor::operator<` unfolded for dimension counts that fit `unsigned int`. -/
theorem less_iff {lt : CobaltDimension → CobaltDimension → Bool} (a b : Tensor)
    (ha : a.dimensions.length < UINT_MOD) (hb : b.dimensions.length < UINT_MOD) :
    a.less lt b = true ↔
      a.dataType < b.dataType ∨
      (a.dataType = b.dataType ∧
        (a.dimensions.length < b.dimensions.length ∨
        (a.dimensions.length = b.dimensions.length ∧
          lessLoop lt a.dimensions b.dimensions = true))) := by
  unfold Tensor.less
  rw [take_numDims a ha, numDims_eq_length a ha, numDims_eq_length b hb]
  split_ifs with h1 h2 h3 h4
  · simp [h1]
  · constructor
    · intro h; exact absurd h (by simp)
    · rintro (h | ⟨h, _⟩) <;> omega
  · constructor
    · intro _; exact Or.inr ⟨by omega, Or.inl h3⟩
    · intro _; rfl
  · constructor
    · intro h; exact absurd h (by simp)
    · rintro (h | ⟨_, h | ⟨h, _⟩⟩) <;> omega
  · constructor
    · intro h; exact Or.inr ⟨by omega, Or.inr ⟨by omega, h⟩⟩
    · rintro (h | ⟨_, h | ⟨_, h⟩⟩)
      · omega
      · omega
      · exact h


theorem less_irrefl {lt : CobaltDimension → CobaltDimension → Bool}
    (h : StrictTotal lt) (a : Tensor) (ha : a.dimensions.length < UINT_MOD) :
    a.less lt a = false := by
  cases hl : a.less lt a with
  | false => rfl
  | true =>
    rw [less_iff a a ha ha] at hl
    rcases hl with h1 | ⟨_, h1 | ⟨_, h1⟩⟩
    · omega
    · omega
    · rw [lessLoop_irrefl h] at h1
      exact absurd h1 (by simp)

theorem less_trans {lt : CobaltDimension → CobaltDimension → Bool}
    (h : StrictTotal lt) (a b c : Tensor) (ha : a.dimensions.length < UINT_MOD)
    (hb : b.dimensions.length < UINT_MOD) (hc : c.dimensions.length < UINT_MOD)
    (hab : a.less lt b = true) (hbc : b.less lt c = true) : a.less lt c = true := by
  rw [less_iff a b ha hb] at hab
  rw [less_iff b c hb hc] at hbc
  rw [less_iff a c ha hc]
  rcases hab with h1 | ⟨e1, h1 | ⟨l1, h1⟩⟩
  · rcases hbc with h2 | ⟨e2, _⟩
    · exact Or.inl (by omega)
    · exact Or.inl (by omega)
  · rcases hbc with h2 | ⟨e2, h2 | ⟨l2, _⟩⟩
    · exact Or.inl (by omega)
    · exact Or.inr ⟨by omega, Or.inl (by omega)⟩
    · exact Or.inr ⟨by omega, Or.inl (by omega)⟩
  · rcases hbc with h2 | ⟨e2, h2 | ⟨l2, h2⟩⟩
    · exact Or.inl (by omega)
    · exact Or.inr ⟨by omega, Or.inl (by omega)⟩
    · exact Or.inr ⟨by omega, Or.inr ⟨by omega, lessLoop_trans h _ _ _ h1 h2⟩⟩

theorem less_total {lt : CobaltDimension → CobaltDimension → Bool}
    (h : StrictTotal lt) (a b : Tensor) (ha : a.dimensions.length < UINT_MOD)
    (hb : b.dimensions.length < UINT_MOD) (hne : a ≠ b) :
    a.less lt b = true ∨ b.less lt a = true := by
  rw [less_iff a b ha hb, less_iff b a hb ha]
  rcases Nat.lt_trichotomy a.dataType b.dataType with h1 | h1 | h1
  · exact Or.inl (Or.inl h1)
  · rcases Nat.lt_trichotomy a.dimensions.length b.dimensions.length with h2 | h2 | h2
    · exact Or.inl (Or.inr ⟨h1, Or.inl h2⟩)
    · have hd : a.dimensions ≠ b.dimensions := by
        intro e
        apply hne
        cases a; cases b
        simp_all
      rcases lessLoop_total h _ _ h2 hd with h3 | h3
      · exact Or.inl (Or.inr ⟨h1, Or.inr ⟨h2, h3⟩⟩)
      · exact Or.inr (Or.inr ⟨h1.symm, Or.inr ⟨h2.symm, h3⟩⟩)
    · exact Or.inr (Or.inr ⟨h1.symm, Or.inl h2⟩)
  · exact Or.inr (Or.inl h1)

/-- C8: for a dimension comparison that is a strict total order and shapes
whose dimension counts fit `unsigned int`, `Tensor::operator<` is the
lexicographic comparison of (data-type tag, number of dimensions, dimensions
element by element), it is irreflexive and transitive, and for any two shapes
exactly one of `a < b`, `b < a`, `a = b` holds. -/
theorem less_strict_total_order (lt : CobaltDimension → CobaltDimension → Bool)
    (hlt : StrictTotal lt) :
    (∀ a b : Tensor, a.dimensions.length < UINT_MOD → b.dimensions.length < UINT_MOD →
      (a.less lt b = true ↔ lexLess lt a b)) ∧
    (∀ a : Tensor, a.dimensions.length < UINT_MOD → a.less lt a = false) ∧
    (∀ a b c : Tensor, a.dimensions.length < UINT_MOD → b.dimensions.length < UINT_MOD →
      c.dimensions.length < UINT_MOD →
      a.less lt b = true → b.less lt c = true → a.less lt c = true) ∧
    (∀ a b : Tensor, a.dimensions.length < UINT_MOD → b.dimensions.length < UINT_MOD →
      (a.less lt b = true ∧ b.less lt a = false ∧ a ≠ b) ∨
      (a.less lt b = false ∧ b.less lt a = true ∧ a ≠ b) ∨
      (a.less lt b = false ∧ b.less lt a = false ∧ a = b)) := by
  refine ⟨?_, fun a ha => less_irrefl hlt a ha,
    fun a b c ha hb hc => less_trans hlt a b c ha hb hc, ?_⟩
  · intro a b ha hb
    rw [less_iff a b ha hb]
    unfold lexLess
    rw [lessLoop_iff_first_diff hlt]
  · intro a b ha hb
    have asym : ∀ x y : Tensor, x.dimensions.length < UINT_MOD →
        y.dimensions.length < UINT_MOD → x.less lt y = true → y.less lt x = false := by
      intro x y hx hy hxy
      cases hyx : y.less lt x with
      | false => rfl
      | true =>
        have := less_trans hlt x y x hx hy hx hxy hyx
        rw [less_irrefl hlt x hx] at this
        exact absurd this (by simp)
    by_cases hab : a = b
    · subst hab
      exact Or.inr (Or.inr ⟨less_irrefl hlt a ha, less_irrefl hlt a ha, rfl⟩)
    · rcases less_total hlt a b ha hb hab with h1 | h1
      · exact Or.inl ⟨h1, asym a b ha hb h1, hab⟩
      · exact Or.inr (Or.inl ⟨asym b a hb ha h1, h1, hab⟩)

/-- C8 witness: under descending stride then descending size, `shapeA` is
less than `shapeB` (same tag and count, larger last size), `shapeB` is less
than `shapeC` (fewer dimensions), and so `shapeA` is less than `shapeC`. -/
theorem less_strict_total_order_witness :
    StrictTotal dimensionLess ∧
    shapeA.dimensions.length < UINT_MOD ∧ shapeB.dimensions.length < UINT_MOD ∧
    shapeC.dimensions.length < UINT_MOD ∧
    shapeA.less dimensionLess shapeB = true ∧ shapeB.less dimensionLess shapeC = true ∧
    shapeA.less dimensionLess shapeC = true ∧ lexLess dimensionLess shapeA shapeB :=
  ⟨dimensionLess_strictTotal, by decide, by decide, by decide, by decide, by decide,
    (less_strict_total_order dimensionLess dimensionLess_strictTotal).2.2.1 shapeA shapeB shapeC
      (by decide) (by decide) (by decide) (by decide) (by decide),
    ((less_strict_total_order dimensionLess dimensionLess_strictTotal).1 shapeA shapeB
      (by decide) (by decide)).1 (by decide)⟩


/-! ## Footprint as a storage bound -/

/-- On non-overlapping dimensions whose extents fit, an offset below the first
stride plus the addressed offset of in-bounds coordinates stays below the
maximum extent. -/
theorem nested_sum_lt (ds : List CobaltDimension) :
    ∀ (lo acc : Nat) (cs : List Nat), stridesNested lo ds = true → acc < lo →
      (∀ d ∈ ds, 1 ≤ d.size) → (∀ d ∈ ds, d.size * d.stride < UINT_MOD) →
      coordsBelow ds cs → ds ≠ [] →
      acc + (List.zipWith (fun d c => (c * d.stride) % UINT_MOD) ds cs).sum
        < (ds.map (fun d => (d.size * d.stride) % UINT_MOD)).foldr max 0 := by
  induction ds with
  | nil => intro lo acc cs _ _ _ _ _ h; exact absurd rfl h
  | cons d ds ih =>
    intro lo acc cs hnest hacc hs hfit hcb _
    cases cs with
    | nil => exact absurd hcb.1 (by simp)
    | cons c cs =>
      simp only [stridesNested, Bool.and_eq_true, decide_eq_true_eq] at hnest
      obtain ⟨hlo, hnest2⟩ := hnest
      obtain ⟨hc, hcb2⟩ := coordsBelow_cons d ds c cs hcb
      have hs2 : ∀ e ∈ ds, 1 ≤ e.size := fun e he => hs e (List.mem_cons_of_mem _ he)
      have hfit2 : ∀ e ∈ ds, e.size * e.stride < UINT_MOD :=
        fun e he => hfit e (List.mem_cons_of_mem _ he)
      have hX : (d.size * d.stride) % UINT_MOD = d.size * d.stride :=
        Nat.mod_eq_of_lt (hfit d (List.mem_cons_self _ _))
      have hmod : (c * d.stride) % UINT_MOD ≤ c * d.stride := Nat.mod_le _ _
      have hstep : c * d.stride + d.stride ≤ d.size * d.stride := by
        have : (c + 1) * d.stride ≤ d.size * d.stride := Nat.mul_le_mul_right _ hc
        calc c * d.stride + d.stride = (c + 1) * d.stride := by ring
          _ ≤ d.size * d.stride := this
      simp only [List.zipWith_cons_cons, List.sum_cons, List.map_cons, List.foldr_cons, hX]
      by_cases hnil : ds = []
      · subst hnil
        simp only [List.zipWith_nil_left, List.sum_nil, List.map_nil, List.foldr_nil]
        have : d.size * d.stride ≤ max (d.size * d.stride) 0 := le_max_left _ _
        omega
      · have hih := ih (d.size * d.stride) (acc + (c * d.stride) % UINT_MOD) cs hnest2
          (by omega) hs2 hfit2 hcb2 hnil
        have := le_max_right (d.size * d.stride)
          ((ds.map (fun d => (d.size * d.stride) % UINT_MOD)).foldr max 0)
        omega

/-- C14 (amended): for every shape with at least one dimension whose
dimensions do not overlap (`stride[0] ≥ 1`, `stride[i+1] ≥ size[i] * stride[i]`),
whose sizes are all at least `1` and whose products `size[i] * stride[i]` are
below `2 ^ 32`, and every coordinate vector with `coords[i] < size[i]` for all
`i`, `getIndex` returns an offset strictly below `numElements`. -/
theorem getIndex_lt_numElements_nonOverlapping (t : Tensor) (coords : List Nat)
    (hn : t.dimensions.length < UINT_MOD) (hno : t.nonOverlapping) (hs : t.sizesPositive)
    (hfit : t.extentsFit) (hb : coordsBelow t.dimensions coords) :
    ∃ idx, t.getIndex coords = some idx ∧ idx < t.numElements := by
  refine ⟨_, getIndex_eq_zip t coords hn hb.1, ?_⟩
  have hsum := nested_sum_lt t.dimensions 1 0 coords hno.2 (by omega) hs hfit hb hno.1
  have hnum : t.numElements =
      (t.dimensions.map (fun d => (d.size * d.stride) % UINT_MOD)).foldr max 0 := by
    unfold Tensor.numElements
    rw [take_numDims t hn, numElementsLoop_eq, Nat.zero_max]
  rw [hnum]
  rw [Nat.zero_add] at hsum
  exact lt_of_le_of_lt (Nat.mod_le _ _) hsum

/-- C14 witness: in the padded matrix with sizes `(3, 2)` and strides `(1, 5)`
the last element `(2, 1)` is addressed at `7`, below the footprint `10`. -/
theorem getIndex_lt_numElements_nonOverlapping_witness :
    paddedMatrix.dimensions.length < UINT_MOD ∧ paddedMatrix.nonOverlapping ∧
    paddedMatrix.sizesPositive ∧ paddedMatrix.extentsFit ∧
    coordsBelow paddedMatrix.dimensions [2, 1] ∧
    paddedMatrix.getIndex [2, 1] = some 7 ∧ paddedMatrix.numElements = 10 ∧
    ∃ idx, paddedMatrix.getIndex [2, 1] = some idx ∧ idx < paddedMatrix.numElements :=
  ⟨by decide, by decide, by decide, by decide, by decide, by decide, by decide,
    getIndex_lt_numElements_nonOverlapping paddedMatrix [2, 1] (by decide) (by decide)
      (by decide) (by decide) (by decide)⟩

/-- C14 counterexample: with sizes `(2, 3)` and the overlapping strides
`(1, 1)` the in-bounds coordinates `(1, 2)` are addressed at `3`, which is not
below the footprint `3`. The bound also fails for the shape with no dimension
(offset `0`, footprint `0`), for a dimension of stride `0` (offset `0`,
footprint `0`) and for sizes `(65536, 65536)` with strides `(1, 65536)`
(offset `65536`, footprint `65536`). -/
theorem getIndex_lt_numElements_arbitrary_counterexample :
    (overlapped.wellFormed ∧ overlapped.sizesPositive ∧
      coordsBelow overlapped.dimensions [1, 2] ∧
      overlapped.getIndex [1, 2] = some 3 ∧ overlapped.numElements = 3) ∧
    (scalarShape.wellFormed ∧ scalarShape.sizesPositive ∧
      coordsBelow scalarShape.dimensions [] ∧
      scalarShape.getIndex [] = some 0 ∧ scalarShape.numElements = 0) ∧
    (broadcastShape.wellFormed ∧ broadcastShape.sizesPositive ∧
      coordsBelow broadcastShape.dimensions [3] ∧
      broadcastShape.getIndex [3] = some 0 ∧ broadcastShape.numElements = 0) ∧
    (hugeMatrix.wellFormed ∧ hugeMatrix.sizesPositive ∧ hugeMatrix.nonOverlapping ∧
      coordsBelow hugeMatrix.dimensions [0, 1] ∧
      hugeMatrix.getIndex [0, 1] = some 65536 ∧ hugeMatrix.numElements = 65536) := by
  refine ⟨⟨by decide, by decide, by decide, by decide, by decide⟩,
    ⟨by decide, by decide, by decide, by decide, by decide⟩,
    ⟨by decide, by decide, by decide, by decide, by decide⟩,
    ⟨by decide, by decide, by decide, by decide, by decide, by decide⟩⟩

/-- C15 (amended): for the two-dimensional shape with sizes `(m, n)`,
`m ≥ 1`, `n ≥ 1`, and strides `(1, ld)` with `ld > m` and `n * ld` below
`2 ^ 32`, `numElements` returns `n * ld`, which exceeds the element count
`m * n` by the padding `n * (ld - m)`. -/
theorem numElements_padded (ty m n ld : Nat) (hm : 1 ≤ m) (hn : 1 ≤ n) (hld : m < ld)
    (hfit : n * ld < UINT_MOD) :
    (paddedShape ty m n ld).numElements = n * ld ∧ n * ld = m * n + n * (ld - m) := by
  have hle : ld ≤ n * ld := Nat.le_mul_of_pos_left ld hn
  have hmM : m < UINT_MOD := by omega
  constructor
  · have htake : (paddedShape ty m n ld).dimensions.take (paddedShape ty m n ld).numDims =
        [⟨1, m⟩, ⟨ld, n⟩] := by
      rw [take_numDims _ (by unfold UINT_MOD; simp [paddedShape])]
      rfl
    unfold Tensor.numElements
    rw [htake, numElementsLoop_eq]
    simp only [List.map_cons, List.map_nil, List.foldr_cons, List.foldr_nil, Nat.mul_one,
      Nat.mod_eq_of_lt hmM, Nat.mod_eq_of_lt hfit]
    omega
  · have : n * ld = n * m + n * (ld - m) := by
      rw [← Nat.mul_add]
      congr 1
      omega
    rw [this, Nat.mul_comm n m]

/-- C15 witness: sizes `(3, 2)` with strides `(1, 5)` have footprint `10`, the
element count `6` plus the padding `4`. -/
theorem numElements_padded_witness :
    1 ≤ 3 ∧ 1 ≤ 2 ∧ 3 < 5 ∧ 2 * 5 < UINT_MOD ∧
    (paddedShape 0 3 2 5).numElements = 2 * 5 ∧ 2 * 5 = 3 * 2 + 2 * (5 - 3) :=
  ⟨by decide, by decide, by decide, by decide,
    numElements_padded 0 3 2 5 (by decide) (by decide) (by decide) (by decide)⟩

/-- C15 counterexample: with sizes `(1, 65536)` and strides `(1, 65536)` the
product `n * ld` is `2 ^ 32`, and `numElements` returns `1`. -/
theorem numElements_padded_counterexample :
    (paddedShape 0 1 65536 65536).wellFormed ∧ 1 ≤ 1 ∧ 1 ≤ 65536 ∧ 1 < 65536 ∧
    (paddedShape 0 1 65536 65536).numElements = 1 ∧
    (paddedShape 0 1 65536 65536).numElements ≠ 65536 * 65536 := by
  refine ⟨by decide, by decide, by decide, by decide, by decide, by decide⟩


/-! ## Exactness of the machine arithmetic -/

/-- C18: with 32-bit coordinates, sizes and strides and 64-bit results,
`getIndex` returns the sum of `coords[i] * stride[i]` whenever every product is
below `2 ^ 32` and the sum is below `2 ^ 64`, and `numElements` returns the
maximum of `size[i] * stride[i]` whenever every product is below `2 ^ 32`; in
general each product is reduced modulo `2 ^ 32` before it is accumulated, so
that the coordinate `65536` with stride `65536` is addressed at `0`. -/
theorem machine_arithmetic_exact :
    (∀ (t : Tensor) (coords : List Nat), t.dimensions.length < UINT_MOD →
      t.dimensions.length ≤ coords.length →
      (∀ i < t.dimensions.length,
        coords.getD i 0 * ((t.dimensions[i]?).map (·.stride)).getD 0 < UINT_MOD) →
      linearIndexSpec t coords < SIZE_MOD →
      t.getIndex coords = some (linearIndexSpec t coords)) ∧
    (∀ t : Tensor, t.dimensions.length < UINT_MOD → t.extentsFit →
      t.numElements = footprintSpec t) ∧
    (∀ (t : Tensor) (coords : List Nat), t.dimensions.length < UINT_MOD →
      t.dimensions.length ≤ coords.length →
      t.getIndex coords =
        some ((List.zipWith (fun d c => (c * d.stride) % UINT_MOD) t.dimensions coords).sum
          % SIZE_MOD) ∧
      t.numElements =
        (t.dimensions.map (fun d => (d.size * d.stride) % UINT_MOD)).foldr max 0) ∧
    (wideStride.wellFormed ∧ wideStride.getIndex [65536] = some 0) := by
  refine ⟨?_, ?_, ?_, by decide, by decide⟩
  · intro t coords hn hc hprod hsum
    rw [getIndex_eq_zip t coords hn hc,
      zipWith_sum_eq_range (fun c s => (c * s) % UINT_MOD) t.dimensions coords hc]
    have hcongr : (∑ i in Finset.range t.dimensions.length,
        (coords.getD i 0 * ((t.dimensions[i]?).map (·.stride)).getD 0) % UINT_MOD) =
        linearIndexSpec t coords := by
      unfold linearIndexSpec
      apply Finset.sum_congr rfl
      intro i hi
      exact Nat.mod_eq_of_lt (hprod i (Finset.mem_range.1 hi))
    rw [hcongr, Nat.mod_eq_of_lt hsum]
  · intro t hn hfit
    unfold Tensor.numElements footprintSpec
    rw [take_numDims t hn, numElementsLoop_eq, Nat.zero_max]
    congr 1
    apply List.map_congr_left
    intro d hd
    exact Nat.mod_eq_of_lt (hfit d hd)
  · intro t coords hn hc
    refine ⟨getIndex_eq_zip t coords hn hc, ?_⟩
    unfold Tensor.numElements
    rw [take_numDims t hn, numElementsLoop_eq, Nat.zero_max]

/-- C18 witness: for sizes `(3, 2)` and strides `(1, 3)` no product wraps, the
coordinates `(2, 1)` are addressed at `5` and the footprint is `6`. -/
theorem machine_arithmetic_exact_witness :
    smallMatrix.dimensions.length < UINT_MOD ∧
    smallMatrix.dimensions.length ≤ [2, 1].length ∧
    (∀ i < smallMatrix.dimensions.length,
      [2, 1].getD i 0 * ((smallMatrix.dimensions[i]?).map (·.stride)).getD 0 < UINT_MOD) ∧
    linearIndexSpec smallMatrix [2, 1] < SIZE_MOD ∧ smallMatrix.extentsFit ∧
    linearIndexSpec smallMatrix [2, 1] = 5 ∧ footprintSpec smallMatrix = 6 ∧
    smallMatrix.getIndex [2, 1] = some (linearIndexSpec smallMatrix [2, 1]) ∧
    smallMatrix.numElements = footprintSpec smallMatrix :=
  ⟨by decide, by decide, by decide, by decide, by decide, by decide, by decide,
    machine_arithmetic_exact.1 smallMatrix [2, 1] (by decide) (by decide) (by decide)
      (by decide),
    machine_arithmetic_exact.2.1 smallMatrix (by decide) (by decide)⟩


/-! ## The returned order on distinct and on repeated dimensions -/

theorem stdFind_before (l : List CobaltDimension) (v : CobaltDimension) :
    ∀ j, j < stdFind l v → l[j]? ≠ some v := by
  induction l with
  | nil => intro j hj; simp [stdFind] at hj
  | cons d ds ih =>
    intro j hj
    rw [stdFind] at hj
    split at hj
    · omega
    · rename_i hd
      cases j with
      | zero =>
        simp only [List.getElem?_cons_zero, ne_eq, Option.some.injEq]
        intro h
        exact hd ((dimensionEq_iff d v).2 h)
      | succ j =>
        simp only [List.getElem?_cons_succ]
        exact ih j (by omega)

theorem stdFind_getElem_of_nodup (l : List CobaltDimension) (hl : l.Nodup) (i : Nat)
    (hi : i < l.length) : stdFind l l[i] = i := by
  obtain ⟨h1, h2⟩ := stdFind_mem l l[i] (List.getElem_mem hi)
  rw [List.getElem?_eq_getElem h1] at h2
  exact (hl.getElem_inj_iff).1 (Option.some.inj h2)

theorem stdFind_inj_on (l : List CobaltDimension) (a b : CobaltDimension) (ha : a ∈ l)
    (hb : b ∈ l) (h : stdFind l a = stdFind l b) : a = b := by
  have h1 := (stdFind_mem l a ha).2
  have h2 := (stdFind_mem l b hb).2
  rw [h] at h1
  exact Option.some.inj (h1.symm.trans h2)

/-- The returned vector entry by entry. -/
theorem sortDimensions_snd_getElem? (lt : CobaltDimension → CobaltDimension → Bool)
    (t : Tensor) (hn : t.dimensions.length < UINT_MOD) (i : Nat)
    (hi : i < t.dimensions.length) :
    (t.sortDimensions lt).2[i]? = some (stdFind (stdSort lt t.dimensions) t.dimensions[i]) := by
  rw [sortDimensions_snd lt t hn]
  simp [hi]

/-- C20: on pairwise distinct dimensions the vector returned by
`sortDimensions` is a rearrangement of `0, ..., n-1`, `order[i]` is the only
position of the `i`-th original dimension in the sorted sequence, and the
vector is `[0, ..., n-1]` exactly when the sequence was already sorted; in
general `order[i]` is the first position in the sorted sequence holding the
`i`-th original dimension, so equal dimensions get equal entries. -/
theorem sortDimensions_distinct_bijection
    (lt : CobaltDimension → CobaltDimension → Bool) (hlt : StrictTotal lt) :
    (∀ t : Tensor, t.dimensions.length < UINT_MOD → t.dimensions.Nodup →
      (t.sortDimensions lt).2.Perm (List.range t.dimensions.length) ∧
      (∀ i < t.dimensions.length, ∀ j : Nat,
        (t.sortDimensions lt).1.dimensions[j]? = t.dimensions[i]? ↔
          (t.sortDimensions lt).2[i]? = some j) ∧
      ((t.sortDimensions lt).2 = List.range t.dimensions.length ↔
        SortedBy lt t.dimensions)) ∧
    (∀ t : Tensor, t.dimensions.length < UINT_MOD →
      (∀ i < t.dimensions.length, ∃ o,
        (t.sortDimensions lt).2[i]? = some o ∧
        (t.sortDimensions lt).1.dimensions[o]? = t.dimensions[i]? ∧
        ∀ j < o, (t.sortDimensions lt).1.dimensions[j]? ≠ t.dimensions[i]?) ∧
      (∀ i < t.dimensions.length, ∀ k < t.dimensions.length,
        t.dimensions[i]? = t.dimensions[k]? →
        (t.sortDimensions lt).2[i]? = (t.sortDimensions lt).2[k]?)) := by
  refine ⟨?_, ?_⟩
  · intro t hn hnd
    have hperm := stdSort_perm lt t.dimensions
    have hlen : (stdSort lt t.dimensions).length = t.dimensions.length := hperm.length_eq
    have hnd2 : (stdSort lt t.dimensions).Nodup := hperm.nodup_iff.2 hnd
    have hmem : ∀ v ∈ t.dimensions, v ∈ stdSort lt t.dimensions :=
      fun v hv => hperm.mem_iff.2 hv
    refine ⟨?_, ?_, ?_⟩
    · rw [sortDimensions_snd lt t hn]
      have hnodup : (t.dimensions.map
          (fun value => stdFind (stdSort lt t.dimensions) value)).Nodup :=
        List.Nodup.map_on
          (fun a ha b hb h => stdFind_inj_on _ a b (hmem a ha) (hmem b hb) h) hnd
      have hsub : t.dimensions.map (fun value => stdFind (stdSort lt t.dimensions) value)
          ⊆ List.range t.dimensions.length := by
        intro x hx
        obtain ⟨v, hv, rfl⟩ := List.mem_map.1 hx
        rw [List.mem_range, ← hlen]
        exact (stdFind_mem _ v (hmem v hv)).1
      exact (List.subperm_of_subset hnodup hsub).perm_of_length_le (by simp)
    · intro i hi j
      rw [sortDimensions_snd_getElem? lt t hn i hi, sortDimensions_fst]
      obtain ⟨h1, h2⟩ := stdFind_mem _ t.dimensions[i] (hmem _ (List.getElem_mem hi))
      rw [List.getElem?_eq_getElem hi]
      dsimp only
      constructor
      · intro hj
        have hjlt : j < (stdSort lt t.dimensions).length := by
          by_contra hcon
          rw [List.getElem?_eq_none (by omega)] at hj
          exact absurd hj (by simp)
        rw [List.getElem?_eq_getElem hjlt] at hj
        rw [List.getElem?_eq_getElem h1] at h2
        have : (stdSort lt t.dimensions)[j] =
            (stdSort lt t.dimensions)[stdFind (stdSort lt t.dimensions) t.dimensions[i]] :=
          (Option.some.inj hj).trans (Option.some.inj h2).symm
        rw [(hnd2.getElem_inj_iff).1 this]
      · intro hj
        rw [← Option.some.inj hj]
        exact h2
    · constructor
      · intro hid
        have heq : stdSort lt t.dimensions = t.dimensions := by
          apply List.ext_getElem hlen
          intro i h1 h2
          have hi := sortDimensions_snd_getElem? lt t hn i h2
          rw [hid, List.getElem?_range h2] at hi
          have hfound := (stdFind_mem _ t.dimensions[i] (hmem _ (List.getElem_mem h2))).2
          rw [← Option.some.inj hi, List.getElem?_eq_getElem h1] at hfound
          exact Option.some.inj hfound
        have hsorted := stdSort_sorted hlt t.dimensions
        rw [heq] at hsorted
        exact hsorted
      · intro hs
        have heq : t.dimensions = stdSort lt t.dimensions :=
          stdSort_unique hlt t.dimensions t.dimensions hs (List.Perm.refl _)
        rw [sortDimensions_snd lt t hn, ← heq]
        apply List.ext_getElem (by simp)
        intro i h1 h2
        simp only [List.getElem_map, List.getElem_range]
        exact stdFind_getElem_of_nodup t.dimensions hnd i (by simpa using h1)
  · intro t hn
    have hperm := stdSort_perm lt t.dimensions
    refine ⟨?_, ?_⟩
    · intro i hi
      have hm : t.dimensions[i] ∈ stdSort lt t.dimensions :=
        hperm.mem_iff.2 (List.getElem_mem hi)
      refine ⟨stdFind (stdSort lt t.dimensions) t.dimensions[i],
        sortDimensions_snd_getElem? lt t hn i hi, ?_, ?_⟩
      · rw [sortDimensions_fst, List.getElem?_eq_getElem hi]
        exact (stdFind_mem _ _ hm).2
      · intro j hj
        rw [sortDimensions_fst, List.getElem?_eq_getElem hi]
        exact stdFind_before _ _ j hj
    · intro i hi k hk hik
      rw [sortDimensions_snd_getElem? lt t hn i hi, sortDimensions_snd_getElem? lt t hn k hk]
      rw [List.getElem?_eq_getElem hi, List.getElem?_eq_getElem hk] at hik
      rw [Option.some.inj hik]

/-- C20 witness: three distinct dimensions in ascending stride get the vector
`[2, 1, 0]`, a rearrangement of `[0, 1, 2]` that is not the identity, and the
sequence was not sorted under descending stride. -/
theorem sortDimensions_distinct_bijection_witness :
    StrictTotal dimensionLess ∧ ascending.dimensions.length < UINT_MOD ∧
    ascending.dimensions.Nodup ∧
    (ascending.sortDimensions dimensionLess).2 = [2, 1, 0] ∧
    (ascending.sortDimensions dimensionLess).2.Perm (List.range ascending.dimensions.length) ∧
    ((ascending.sortDimensions dimensionLess).2 = List.range ascending.dimensions.length ↔
      SortedBy dimensionLess ascending.dimensions) :=
  ⟨dimensionLess_strictTotal, by decide, by decide, by decide,
    ((sortDimensions_distinct_bijection dimensionLess dimensionLess_strictTotal).1 ascending
      (by decide) (by decide)).1,
    ((sortDimensions_distinct_bijection dimensionLess dimensionLess_strictTotal).1 ascending
      (by decide) (by decide)).2.2⟩


end Cobalt

namespace Tensile

/-! ## Scalar marshaling -/

theorem slot_updateValue (k : KernelArguments) (n : String) (v : ArgValue) (n' : String) :
    (k.updateValue n v).slot n' = if n = n' then some v else k.slot n' := by
  unfold KernelArguments.slot KernelArguments.updateValue
  by_cases h : n = n'
  · simp [h]
  · simp [h, List.find?_cons]

/-! ## Source bytes and stored values -/

theorem readFloat_of (v rest : Nat) (hv : v < 2 ^ 32) : readFloat (v + 2 ^ 32 * rest) = v := by
  unfold readFloat
  norm_num at hv ⊢
  omega

theorem readDouble_of (v rest : Nat) (hv : v < 2 ^ 64) :
    readDouble (v + 2 ^ 64 * rest) = v := by
  unfold readDouble
  norm_num at hv ⊢
  omega

theorem readComplexFloat_of (re im rest : Nat) (hre : re < 2 ^ 32) (him : im < 2 ^ 32) :
    readComplexFloat (re + 2 ^ 32 * im + 2 ^ 64 * rest) = (re, im) := by
  unfold readComplexFloat
  norm_num at hre him ⊢
  constructor <;> omega

theorem readComplexDouble_of (re im rest : Nat) (hre : re < 2 ^ 64) (him : im < 2 ^ 64) :
    readComplexDouble (re + 2 ^ 64 * im + 2 ^ 128 * rest) = (re, im) := by
  unfold readComplexDouble
  norm_num at hre him ⊢
  constructor <;> omega

/-- C9: for `name` in `alpha`, `beta` with the type tag `Float`, `BFloat16`,
`Double`, `ComplexFloat` or `ComplexDouble`: whatever value of the matching
type the source bytes hold (a 32-bit pattern `v`, a 64-bit pattern `v`, a pair
of 32-bit or of 64-bit patterns `re`, `im`, followed by any further bytes),
`load_scalar` succeeds and makes exactly one update of the argument map, on the
slot `name`, which afterwards holds that same value with the type `float`
(`Float`, `BFloat16`), `double`, `complex<float>` or `complex<double>`; `Float`
and `BFloat16` give the same update for the same source bytes. -/
theorem load_scalar_value_preserving :
    (∀ (g : KernelGraphInvocation) (name : String) (src : Nat) (ty : DataType),
      (name = "alpha" ∧ src = g.alpha ∧ ty = g.alphaType) ∨
        (name = "beta" ∧ src = g.beta ∧ ty = g.betaType) →
      (ty = DataType.Float ∨ ty = DataType.BFloat16 →
        ∀ v rest : Nat, v < 2 ^ 32 → src = v + 2 ^ 32 * rest →
        load_scalar g name = (.ok, { g with kArgs :=
          ⟨g.kArgs.updates ++ [(name, .float v)]⟩ }) ∧
        (load_scalar g name).2.kArgs.slot name = some (.float v)) ∧
      (ty = DataType.Double →
        ∀ v rest : Nat, v < 2 ^ 64 → src = v + 2 ^ 64 * rest →
        load_scalar g name = (.ok, { g with kArgs :=
          ⟨g.kArgs.updates ++ [(name, .double v)]⟩ }) ∧
        (load_scalar g name).2.kArgs.slot name = some (.double v)) ∧
      (ty = DataType.ComplexFloat →
        ∀ re im rest : Nat, re < 2 ^ 32 → im < 2 ^ 32 →
        src = re + 2 ^ 32 * im + 2 ^ 64 * rest →
        load_scalar g name = (.ok, { g with kArgs :=
          ⟨g.kArgs.updates ++ [(name, .complexFloat re im)]⟩ }) ∧
        (load_scalar g name).2.kArgs.slot name = some (.complexFloat re im)) ∧
      (ty = DataType.ComplexDouble →
        ∀ re im rest : Nat, re < 2 ^ 64 → im < 2 ^ 64 →
        src = re + 2 ^ 64 * im + 2 ^ 128 * rest →
        load_scalar g name = (.ok, { g with kArgs :=
          ⟨g.kArgs.updates ++ [(name, .complexDouble re im)]⟩ }) ∧
        (load_scalar g name).2.kArgs.slot name = some (.complexDouble re im))) ∧
    (∀ (g : KernelGraphInvocation) (v rest : Nat), v < 2 ^ 32 →
      (load_scalar { g with alpha := v + 2 ^ 32 * rest, alphaType := DataType.Float }
          "alpha").2.kArgs =
        (load_scalar { g with alpha := v + 2 ^ 32 * rest, alphaType := DataType.BFloat16 }
          "alpha").2.kArgs ∧
      (load_scalar { g with beta := v + 2 ^ 32 * rest, betaType := DataType.Float }
          "beta").2.kArgs =
        (load_scalar { g with beta := v + 2 ^ 32 * rest, betaType := DataType.BFloat16 }
          "beta").2.kArgs) := by
  have hslot : ∀ (k : KernelArguments) (n : String) (x : ArgValue),
      KernelArguments.slot ⟨k.updates ++ [(n, x)]⟩ n = some x := by
    intro k n x
    have := slot_updateValue k n x n
    simpa [KernelArguments.updateValue] using this
  refine ⟨?_, ?_⟩
  · intro g name src ty hsel
    have hty : selectedType g name = ty := by
      rcases hsel with ⟨rfl, _, rfl⟩ | ⟨rfl, _, rfl⟩ <;> simp [selectedType]
    have harg : selectedArg g name = src := by
      rcases hsel with ⟨rfl, rfl, _⟩ | ⟨rfl, rfl, _⟩ <;> simp [selectedArg]
    refine ⟨?_, ?_, ?_, ?_⟩
    · intro h v rest hv hsrc
      have hcall : load_scalar g name = (.ok, { g with kArgs :=
          ⟨g.kArgs.updates ++ [(name, .float v)]⟩ }) := by
        rw [← hty] at h
        have hread : readFloat (selectedArg g name) = v := by
          rw [harg, hsrc]; exact readFloat_of v rest hv
        simp [load_scalar, h, KernelArguments.updateValue, hread]
      exact ⟨hcall, by rw [hcall]; exact hslot g.kArgs name _⟩
    · intro h v rest hv hsrc
      have hcall : load_scalar g name = (.ok, { g with kArgs :=
          ⟨g.kArgs.updates ++ [(name, .double v)]⟩ }) := by
        rw [← hty] at h
        have hread : readDouble (selectedArg g name) = v := by
          rw [harg, hsrc]; exact readDouble_of v rest hv
        simp [load_scalar, h, KernelArguments.updateValue, hread]
      exact ⟨hcall, by rw [hcall]; exact hslot g.kArgs name _⟩
    · intro h re im rest hre him hsrc
      have hcall : load_scalar g name = (.ok, { g with kArgs :=
          ⟨g.kArgs.updates ++ [(name, .complexFloat re im)]⟩ }) := by
        rw [← hty] at h
        have hread : readComplexFloat (selectedArg g name) = (re, im) := by
          rw [harg, hsrc]; exact readComplexFloat_of re im rest hre him
        simp [load_scalar, h, KernelArguments.updateValue, hread]
      exact ⟨hcall, by rw [hcall]; exact hslot g.kArgs name _⟩
    · intro h re im rest hre him hsrc
      have hcall : load_scalar g name = (.ok, { g with kArgs :=
          ⟨g.kArgs.updates ++ [(name, .complexDouble re im)]⟩ }) := by
        rw [← hty] at h
        have hread : readComplexDouble (selectedArg g name) = (re, im) := by
          rw [harg, hsrc]; exact readComplexDouble_of re im rest hre him
        simp [load_scalar, h, KernelArguments.updateValue, hread]
      exact ⟨hcall, by rw [hcall]; exact hslot g.kArgs name _⟩
  · intro g v rest hv
    constructor <;> simp [load_scalar, selectedType, selectedArg]


/-- C9 witness: one scalar per tag. The float `1.5` under `Float`, the same
four bytes followed by further bytes under `BFloat16`, the double `1.5` under
`Double`, the pair `(1.5, 2.0)` under `ComplexFloat` and under `ComplexDouble`
are each found unchanged in the slot `alpha`. -/
theorem load_scalar_value_preserving_witness :
    (load_scalar (taggedInvocation DataType.Float 0x3FC00000) "alpha").2.kArgs.slot "alpha" =
      some (.float 0x3FC00000) ∧
    (load_scalar (taggedInvocation DataType.BFloat16 0x53FC00000) "alpha").2.kArgs.slot
      "alpha" = some (.float 0x3FC00000) ∧
    (load_scalar (taggedInvocation DataType.Double 0x3FF8000000000000) "alpha").2.kArgs.slot
      "alpha" = some (.double 0x3FF8000000000000) ∧
    (load_scalar (taggedInvocation DataType.ComplexFloat 0x400000003FC00000)
      "alpha").2.kArgs.slot "alpha" = some (.complexFloat 0x3FC00000 0x40000000) ∧
    (load_scalar (taggedInvocation DataType.ComplexDouble 0x40000000000000003FF8000000000000)
      "alpha").2.kArgs.slot "alpha" =
      some (.complexDouble 0x3FF8000000000000 0x4000000000000000) ∧
    load_scalar (taggedInvocation DataType.Double 0x3FF8000000000000) "alpha" =
      (.ok, { taggedInvocation DataType.Double 0x3FF8000000000000 with
        kArgs := ⟨[("alpha", .double 0x3FF8000000000000)]⟩ }) :=
  ⟨((load_scalar_value_preserving.1 (taggedInvocation DataType.Float 0x3FC00000) "alpha"
      0x3FC00000 DataType.Float (Or.inl ⟨rfl, rfl, rfl⟩)).1 (Or.inl rfl)
      0x3FC00000 0 (by decide) (by decide)).2,
    ((load_scalar_value_preserving.1 (taggedInvocation DataType.BFloat16 0x53FC00000) "alpha"
      0x53FC00000 DataType.BFloat16 (Or.inl ⟨rfl, rfl, rfl⟩)).1 (Or.inr rfl)
      0x3FC00000 5 (by decide) (by decide)).2,
    ((load_scalar_value_preserving.1 (taggedInvocation DataType.Double 0x3FF8000000000000)
      "alpha" 0x3FF8000000000000 DataType.Double (Or.inl ⟨rfl, rfl, rfl⟩)).2.1 rfl
      0x3FF8000000000000 0 (by decide) (by decide)).2,
    ((load_scalar_value_preserving.1
      (taggedInvocation DataType.ComplexFloat 0x400000003FC00000) "alpha"
      0x400000003FC00000 DataType.ComplexFloat (Or.inl ⟨rfl, rfl, rfl⟩)).2.2.1 rfl
      0x3FC00000 0x40000000 0 (by decide) (by decide) (by decide)).2,
    ((load_scalar_value_preserving.1
      (taggedInvocation DataType.ComplexDouble 0x40000000000000003FF8000000000000) "alpha"
      0x40000000000000003FF8000000000000 DataType.ComplexDouble
      (Or.inl ⟨rfl, rfl, rfl⟩)).2.2.2 rfl
      0x3FF8000000000000 0x4000000000000000 0 (by decide) (by decide) (by decide)).2,
    ((load_scalar_value_preserving.1 (taggedInvocation DataType.Double 0x3FF8000000000000)
      "alpha" 0x3FF8000000000000 DataType.Double (Or.inl ⟨rfl, rfl, rfl⟩)).2.1 rfl
      0x3FF8000000000000 0 (by decide) (by decide)).1⟩

theorem append_two_ne (name : String) (h : name = "alpha" ∨ name = "beta") :
    name ≠ name ++ "_2" := by
  rcases h with rfl | rfl <;> decide

/-- C11: with the type tag `Half`, for `name` in `alpha`, `beta`: on a kernel
that is not a source kernel the same 32-bit float is written under `name` and
under `name ++ "_2"`, which hold identical values afterwards; on a source
kernel only the slot `name` is written and the slot `name ++ "_2"` is left
unchanged. -/
theorem load_scalar_half :
    (∀ (g : KernelGraphInvocation) (name : String), name = "alpha" ∨ name = "beta" →
      selectedType g name = DataType.Half → g.isSourceKernel = false →
      load_scalar g name = (.ok, { g with kArgs :=
        ⟨g.kArgs.updates ++ [(name, .float (readFloat (selectedArg g name))),
          (name ++ "_2", .float (readFloat (selectedArg g name)))]⟩ }) ∧
      (load_scalar g name).2.kArgs.slot name =
        some (.float (readFloat (selectedArg g name))) ∧
      (load_scalar g name).2.kArgs.slot (name ++ "_2") =
        some (.float (readFloat (selectedArg g name)))) ∧
    (∀ (g : KernelGraphInvocation) (name : String), name = "alpha" ∨ name = "beta" →
      selectedType g name = DataType.Half → g.isSourceKernel = true →
      load_scalar g name = (.ok, { g with kArgs :=
        ⟨g.kArgs.updates ++ [(name, .float (readFloat (selectedArg g name)))]⟩ }) ∧
      (load_scalar g name).2.kArgs.slot name =
        some (.float (readFloat (selectedArg g name))) ∧
      (load_scalar g name).2.kArgs.slot (name ++ "_2") = g.kArgs.slot (name ++ "_2")) := by
  refine ⟨?_, ?_⟩
  · intro g name hname hty hsrc
    have hne := append_two_ne name hname
    have hcall : load_scalar g name = (.ok, { g with kArgs :=
        (KernelArguments.updateValue
          (g.kArgs.updateValue name (.float (readFloat (selectedArg g name))))
          (name ++ "_2") (.float (readFloat (selectedArg g name)))) }) := by
      simp [load_scalar, hty, hsrc]
    refine ⟨?_, ?_, ?_⟩
    · rw [hcall]
      simp [KernelArguments.updateValue]
    · rw [hcall]
      simp [slot_updateValue, hne, hne.symm]
    · rw [hcall]
      simp [slot_updateValue]
  · intro g name hname hty hsrc
    have hne := append_two_ne name hname
    have hcall : load_scalar g name = (.ok, { g with kArgs :=
        (g.kArgs.updateValue name (.float (readFloat (selectedArg g name)))) }) := by
      simp [load_scalar, hty, hsrc]
    refine ⟨?_, ?_, ?_⟩
    · rw [hcall]
      simp [KernelArguments.updateValue]
    · rw [hcall]
      simp [slot_updateValue]
    · rw [hcall]
      simp [slot_updateValue, hne, hne.symm]

/-- C11 witness: the `Half` scalar `alpha = 1.5` on a kernel that is not a
source kernel is written under `alpha` and `alpha_2`; on a source kernel the
slot `alpha_2` keeps its value. -/
theorem load_scalar_half_witness :
    (selectedType halfInvocation "alpha" = DataType.Half ∧
      halfInvocation.isSourceKernel = false ∧
      (load_scalar halfInvocation "alpha").2.kArgs.slot "alpha" = some (.float 0x3FC00000) ∧
      (load_scalar halfInvocation "alpha").2.kArgs.slot "alpha_2" =
        some (.float 0x3FC00000)) ∧
    (selectedType halfSourceInvocation "alpha" = DataType.Half ∧
      halfSourceInvocation.isSourceKernel = true ∧
      (load_scalar halfSourceInvocation "alpha").2.kArgs.slot "alpha" =
        some (.float 0x3FC00000) ∧
      (load_scalar halfSourceInvocation "alpha").2.kArgs.slot "alpha_2" = some (.float 0)) :=
  ⟨⟨by decide, by decide,
      ((load_scalar_half.1 halfInvocation "alpha" (Or.inl rfl) (by decide)
        (by decide)).2.1).trans (by decide),
      ((load_scalar_half.1 halfInvocation "alpha" (Or.inl rfl) (by decide)
        (by decide)).2.2).trans (by decide)⟩,
    ⟨by decide, by decide,
      ((load_scalar_half.2 halfSourceInvocation "alpha" (Or.inl rfl) (by decide)
        (by decide)).2.1).trans (by decide),
      ((load_scalar_half.2 halfSourceInvocation "alpha" (Or.inl rfl) (by decide)
        (by decide)).2.2).trans (by decide)⟩⟩


/-! ## Failure and frame of the callbacks -/

theorem load_scalar_unsupported (g : KernelGraphInvocation) (name : String)
    (h : (selectedType g name).supported = false) :
    load_scalar g name = (.thrown (" Type mismatch for Argument : " ++ name), g) := by
  cases hty : selectedType g name <;> simp [hty, DataType.supported] at h <;>
    simp [load_scalar, hty]

/-- A supported tag makes one update on `name`, or two, on `name` and
`name ++ "_2"`, for `Half` on a kernel that is not a source kernel. -/
theorem load_scalar_supported (g : KernelGraphInvocation) (name : String)
    (h : (selectedType g name).supported = true) :
    ∃ v : ArgValue,
      load_scalar g name = (.ok, { g with kArgs := g.kArgs.updateValue name v }) ∨
      (selectedType g name = DataType.Half ∧ g.isSourceKernel = false ∧
        load_scalar g name = (.ok, { g with kArgs :=
          (KernelArguments.updateValue (g.kArgs.updateValue name v) (name ++ "_2") v) })) := by
  cases hty : selectedType g name <;> simp [hty, DataType.supported] at h
  · exact ⟨.float (readFloat (selectedArg g name)), Or.inl (by simp [load_scalar, hty])⟩
  · exact ⟨.double (readDouble (selectedArg g name)), Or.inl (by simp [load_scalar, hty])⟩
  · exact ⟨.complexFloat (readComplexFloat (selectedArg g name)).1
      (readComplexFloat (selectedArg g name)).2, Or.inl (by simp [load_scalar, hty])⟩
  · exact ⟨.complexDouble (readComplexDouble (selectedArg g name)).1
      (readComplexDouble (selectedArg g name)).2, Or.inl (by simp [load_scalar, hty])⟩
  · cases hsrc : g.isSourceKernel
    · exact ⟨.float (readFloat (selectedArg g name)),
        Or.inr ⟨rfl, rfl, by simp [load_scalar, hty, hsrc]⟩⟩
    · exact ⟨.float (readFloat (selectedArg g name)),
        Or.inl (by simp [load_scalar, hty, hsrc])⟩
  · exact ⟨.float (floatOfInt32 (readInt32 (selectedArg g name))),
      Or.inl (by simp [load_scalar, hty])⟩
  · exact ⟨.float (readFloat (selectedArg g name)), Or.inl (by simp [load_scalar, hty])⟩

/-- A successful call changes `kArgs` only, and there only the slots `name`
and `name ++ "_2"`; the slot `name` holds a value afterwards. -/
theorem load_scalar_frame (g : KernelGraphInvocation) (name : String)
    (h : (selectedType g name).supported = true) :
    (load_scalar g name).1 = .ok ∧
    (load_scalar g name).2.alpha = g.alpha ∧
    (load_scalar g name).2.alphaType = g.alphaType ∧
    (load_scalar g name).2.beta = g.beta ∧
    (load_scalar g name).2.betaType = g.betaType ∧
    (load_scalar g name).2.isSourceKernel = g.isSourceKernel ∧
    (∀ n : String, n ≠ name → n ≠ name ++ "_2" →
      (load_scalar g name).2.kArgs.slot n = g.kArgs.slot n) ∧
    (∃ v, (load_scalar g name).2.kArgs.slot name = some v) := by
  obtain ⟨v, hv | ⟨_, _, hv⟩⟩ := load_scalar_supported g name h
  · rw [hv]
    refine ⟨rfl, rfl, rfl, rfl, rfl, rfl, ?_, ?_⟩
    · intro n h1 _
      simp [slot_updateValue, Ne.symm h1]
    · by_cases h2 : name ++ "_2" = name <;> simp [slot_updateValue, h2]
  · rw [hv]
    refine ⟨rfl, rfl, rfl, rfl, rfl, rfl, ?_, ?_⟩
    · intro n h1 h2
      simp [slot_updateValue, Ne.symm h1, Ne.symm h2]
    · by_cases h2 : name ++ "_2" = name <;> simp [slot_updateValue, h2]

theorem selectedType_alpha (g : KernelGraphInvocation) :
    selectedType g "alpha" = g.alphaType := by
  simp [selectedType]

theorem selectedType_beta (g : KernelGraphInvocation) :
    selectedType g "beta" = g.betaType := by
  simp [selectedType]

/-- C12: `load_scalar` fails exactly when the type tag selected for the name
is not one of `Float`, `BFloat16`, `Double`, `ComplexFloat`, `ComplexDouble`,
`Int32`, `Half`; a name other than `alpha` and `beta` selects `None` and
fails; the message of a failure ends with the argument name and the invocation,
its argument map included, is unchanged. -/
theorem load_scalar_fails_iff :
    (∀ (g : KernelGraphInvocation) (name : String),
      (∃ what, (load_scalar g name).1 = .thrown what) ↔
        (selectedType g name).supported = false) ∧
    (∀ (g : KernelGraphInvocation) (name : String), name ≠ "alpha" → name ≠ "beta" →
      selectedType g name = DataType.None ∧
      (load_scalar g name).1 = .thrown (" Type mismatch for Argument : " ++ name)) ∧
    (∀ (g : KernelGraphInvocation) (name what : String),
      (load_scalar g name).1 = .thrown what →
      what = " Type mismatch for Argument : " ++ name ∧ (load_scalar g name).2 = g) := by
  have key : ∀ (g : KernelGraphInvocation) (name what : String),
      (load_scalar g name).1 = .thrown what → (selectedType g name).supported = false := by
    intro g name what hw
    cases hs : (selectedType g name).supported with
    | false => rfl
    | true =>
      rw [(load_scalar_frame g name hs).1] at hw
      exact absurd hw (by simp)
  refine ⟨?_, ?_, ?_⟩
  · intro g name
    constructor
    · rintro ⟨what, hw⟩
      exact key g name what hw
    · intro h
      exact ⟨_, by rw [load_scalar_unsupported g name h]⟩
  · intro g name h1 h2
    have hty : selectedType g name = DataType.None := by simp [selectedType, h1, h2]
    refine ⟨hty, ?_⟩
    rw [load_scalar_unsupported g name (by rw [hty]; rfl)]
  · intro g name what hw
    have hu := load_scalar_unsupported g name (key g name what hw)
    rw [hu] at hw
    rw [hu]
    simp only [Outcome.thrown.injEq] at hw
    exact ⟨hw.symm, rfl⟩

/-- C12 witness: the name `gamma` selects `None` and fails with a message that
names it, and the tag `None` on `alpha` fails leaving the invocation as it
was. -/
theorem load_scalar_fails_iff_witness :
    ("gamma" : String) ≠ "alpha" ∧ ("gamma" : String) ≠ "beta" ∧
    (load_scalar halfInvocation "gamma").1 = .thrown " Type mismatch for Argument : gamma" ∧
    (selectedType badAlphaInvocation "alpha").supported = false ∧
    (∃ what, (load_scalar badAlphaInvocation "alpha").1 = .thrown what) ∧
    (load_scalar badAlphaInvocation "alpha").2 = badAlphaInvocation :=
  ⟨by decide, by decide,
    ((load_scalar_fails_iff.2.1 halfInvocation "gamma" (by decide) (by decide)).2).trans
      (by decide),
    by decide,
    (load_scalar_fails_iff.1 badAlphaInvocation "alpha").2 (by decide),
    (load_scalar_fails_iff.2.2 badAlphaInvocation "alpha"
      " Type mismatch for Argument : alpha" (by decide)).2⟩


/-- The callback on supported tags is the two calls in sequence. -/
theorem updateKernelArgsFuncCB_ok (g : KernelGraphInvocation)
    (ha : g.alphaType.supported = true) :
    updateKernelArgsFuncCB g = load_scalar (load_scalar g "alpha").2 "beta" := by
  have h1 := (load_scalar_frame g "alpha" (by rw [selectedType_alpha]; exact ha)).1
  unfold updateKernelArgsFuncCB
  cases hc : load_scalar g "alpha" with
  | mk o g1 =>
    rw [hc] at h1
    simp only at h1
    subst h1
    rfl

/-- C13: when the type tags of `alpha` and `beta` are supported,
`updateKernelArgsFuncCB` succeeds, every slot other than `alpha`, `beta`,
`alpha_2` and `beta_2` keeps its content, and the source values, the type
tags and `isSourceKernel` are unchanged. -/
theorem updateKernelArgsFuncCB_frame (g : KernelGraphInvocation)
    (ha : g.alphaType.supported = true) (hb : g.betaType.supported = true) :
    (updateKernelArgsFuncCB g).1 = .ok ∧
    (∀ n : String, n ≠ "alpha" → n ≠ "beta" → n ≠ "alpha_2" → n ≠ "beta_2" →
      (updateKernelArgsFuncCB g).2.kArgs.slot n = g.kArgs.slot n) ∧
    (updateKernelArgsFuncCB g).2.alpha = g.alpha ∧
    (updateKernelArgsFuncCB g).2.alphaType = g.alphaType ∧
    (updateKernelArgsFuncCB g).2.beta = g.beta ∧
    (updateKernelArgsFuncCB g).2.betaType = g.betaType ∧
    (updateKernelArgsFuncCB g).2.isSourceKernel = g.isSourceKernel := by
  have fa := load_scalar_frame g "alpha" (by rw [selectedType_alpha]; exact ha)
  obtain ⟨_, a1, a2, a3, a4, a5, a6, _⟩ := fa
  have fb := load_scalar_frame (load_scalar g "alpha").2 "beta"
    (by rw [selectedType_beta, a4]; exact hb)
  obtain ⟨b0, b1, b2, b3, b4, b5, b6, _⟩ := fb
  rw [updateKernelArgsFuncCB_ok g ha]
  refine ⟨b0, ?_, b1.trans a1, b2.trans a2, b3.trans a3, b4.trans a4, b5.trans a5⟩
  intro n h1 h2 h3 h4
  rw [b6 n h2 (by simpa using h4), a6 n h1 (by simpa using h3)]

/-- C13 witness: on two `Half` scalars of a kernel that is not a source kernel
the callback succeeds and writes the four reserved slots, here checked on the
resulting updates. -/
theorem updateKernelArgsFuncCB_frame_witness :
    halfInvocation.alphaType.supported = true ∧ halfInvocation.betaType.supported = true ∧
    (updateKernelArgsFuncCB halfInvocation).1 = .ok ∧
    (updateKernelArgsFuncCB halfInvocation).2.kArgs.updates =
      halfInvocation.kArgs.updates ++
        [("alpha", .float 0x3FC00000), ("alpha_2", .float 0x3FC00000),
          ("beta", .float 0x40000000), ("beta_2", .float 0x40000000)] ∧
    (updateKernelArgsFuncCB halfInvocation).2.isSourceKernel = halfInvocation.isSourceKernel :=
  ⟨by decide, by decide,
    (updateKernelArgsFuncCB_frame halfInvocation (by decide) (by decide)).1,
    by decide,
    (updateKernelArgsFuncCB_frame halfInvocation (by decide) (by decide)).2.2.2.2.2.2⟩

/-- C19: `updateKernelArgsFuncCB` marshals `alpha` before `beta` and is not
atomic. With an unsupported tag on `alpha` it fails with the invocation
unchanged; with a supported tag on `alpha` and an unsupported one on `beta` it
fails in the state left by the call on `alpha`: the slot `alpha` (and
`alpha_2` for `Half` on a kernel that is not a source kernel) has been
updated, the slots `beta` and `beta_2` have not. -/
theorem updateKernelArgsFuncCB_not_atomic :
    (∀ g : KernelGraphInvocation, g.alphaType.supported = false →
      updateKernelArgsFuncCB g = (.thrown " Type mismatch for Argument : alpha", g)) ∧
    (∀ g : KernelGraphInvocation, g.alphaType.supported = true →
      g.betaType.supported = false →
      updateKernelArgsFuncCB g =
        (.thrown " Type mismatch for Argument : beta", (load_scalar g "alpha").2) ∧
      (∃ v : ArgValue,
        ((updateKernelArgsFuncCB g).2.kArgs.updates = g.kArgs.updates ++ [("alpha", v)] ∨
          (g.alphaType = DataType.Half ∧ g.isSourceKernel = false ∧
            (updateKernelArgsFuncCB g).2.kArgs.updates =
              g.kArgs.updates ++ [("alpha", v), ("alpha_2", v)] ∧
            (updateKernelArgsFuncCB g).2.kArgs.slot "alpha_2" = some v)) ∧
        (updateKernelArgsFuncCB g).2.kArgs.slot "alpha" = some v) ∧
      (updateKernelArgsFuncCB g).2.kArgs.slot "beta" = g.kArgs.slot "beta" ∧
      (updateKernelArgsFuncCB g).2.kArgs.slot "beta_2" = g.kArgs.slot "beta_2") := by
  refine ⟨?_, ?_⟩
  · intro g ha
    have h := load_scalar_unsupported g "alpha" (by rw [selectedType_alpha]; exact ha)
    unfold updateKernelArgsFuncCB
    rw [h]
    rfl
  · intro g ha hb
    have hs : (selectedType g "alpha").supported = true := by
      rw [selectedType_alpha]; exact ha
    obtain ⟨_, _, _, _, a4, _, a6, _⟩ := load_scalar_frame g "alpha" hs
    have hcb : updateKernelArgsFuncCB g =
        (.thrown " Type mismatch for Argument : beta", (load_scalar g "alpha").2) := by
      rw [updateKernelArgsFuncCB_ok g ha,
        load_scalar_unsupported _ "beta" (by rw [selectedType_beta, a4]; exact hb)]
      rfl
    refine ⟨hcb, ?_, ?_, ?_⟩
    · rw [hcb]
      obtain ⟨v, hv | ⟨hty, hsrc, hv⟩⟩ := load_scalar_supported g "alpha" hs
      · refine ⟨v, Or.inl ?_, ?_⟩
        · rw [hv]; rfl
        · rw [hv]; simp [slot_updateValue]
      · refine ⟨v, Or.inr ⟨by rw [← selectedType_alpha]; exact hty, hsrc, ?_, ?_⟩, ?_⟩
        · rw [hv]
          simp [KernelArguments.updateValue]
        · rw [hv]
          simp [slot_updateValue]
        · rw [hv]
          simp [slot_updateValue]
    · rw [hcb]
      exact a6 "beta" (by decide) (by decide)
    · rw [hcb]
      exact a6 "beta_2" (by decide) (by decide)

/-- C19 witness: with the tag `None` on `alpha` nothing is written; with `Half`
on `alpha` and an unsupported tag on `beta` the call fails after `alpha` and
`alpha_2` have been written. -/
theorem updateKernelArgsFuncCB_not_atomic_witness :
    (badAlphaInvocation.alphaType.supported = false ∧
      updateKernelArgsFuncCB badAlphaInvocation =
        (.thrown " Type mismatch for Argument : alpha", badAlphaInvocation)) ∧
    (badBetaInvocation.alphaType.supported = true ∧
      badBetaInvocation.betaType.supported = false ∧
      (updateKernelArgsFuncCB badBetaInvocation).1 =
        .thrown " Type mismatch for Argument : beta" ∧
      (updateKernelArgsFuncCB badBetaInvocation).2.kArgs.slot "alpha" =
        some (.float 0x3FC00000) ∧
      (updateKernelArgsFuncCB badBetaInvocation).2.kArgs.slot "alpha_2" =
        some (.float 0x3FC00000) ∧
      (updateKernelArgsFuncCB badBetaInvocation).2.kArgs.slot "beta" = some (.float 0)) :=
  ⟨⟨by decide, updateKernelArgsFuncCB_not_atomic.1 badAlphaInvocation (by decide)⟩,
    ⟨by decide, by decide,
      congrArg Prod.fst
        (updateKernelArgsFuncCB_not_atomic.2 badBetaInvocation (by decide) (by decide)).1,
      by decide, by decide, by decide⟩⟩


/-! ## Batched launch -/

theorem launchKernels_allSucceed (launch : List KernelInvocation → KernelInvocation → Nat)
    (kernels : List KernelInvocation) :
    ∀ stream : List KernelInvocation, allSucceed launch stream kernels →
      launchKernels launch stream kernels = (hipSuccess, stream ++ kernels) := by
  induction kernels with
  | nil => intro stream _; simp [launchKernels]
  | cons k ks ih =>
    intro stream h
    obtain ⟨h1, h2⟩ := h
    rw [launchKernels]
    simp only [h1, ne_eq, not_true_eq_false, if_false]
    rw [ih (stream ++ [k]) h2]
    simp

theorem launchKernels_first_failure (launch : List KernelInvocation → KernelInvocation → Nat)
    (pre : List KernelInvocation) :
    ∀ (stream : List KernelInvocation) (k : KernelInvocation) (post : List KernelInvocation),
      allSucceed launch stream pre → launch (stream ++ pre) k ≠ hipSuccess →
      launchKernels launch stream (pre ++ k :: post) =
        (launch (stream ++ pre) k, stream ++ pre ++ [k]) := by
  induction pre with
  | nil =>
    intro stream k post _ hk
    simp only [List.append_nil] at hk
    simp [launchKernels, hk]
  | cons x xs ih =>
    intro stream k post h hk
    obtain ⟨h1, h2⟩ := h
    have hk2 : launch (stream ++ [x] ++ xs) k ≠ hipSuccess := by simpa using hk
    rw [List.cons_append, launchKernels]
    simp only [h1, ne_eq, not_true_eq_false, if_false]
    rw [ih (stream ++ [x]) k post h2 hk2]
    simp

theorem allSucceed_or_first_failure (launch : List KernelInvocation → KernelInvocation → Nat)
    (kernels : List KernelInvocation) :
    ∀ stream : List KernelInvocation, allSucceed launch stream kernels ∨
      ∃ pre k post, kernels = pre ++ k :: post ∧ allSucceed launch stream pre ∧
        launch (stream ++ pre) k ≠ hipSuccess := by
  induction kernels with
  | nil => intro stream; exact Or.inl trivial
  | cons x xs ih =>
    intro stream
    by_cases hx : launch stream x = hipSuccess
    · rcases ih (stream ++ [x]) with h | ⟨pre, k, post, he, hs, hk⟩
      · exact Or.inl ⟨hx, h⟩
      · refine Or.inr ⟨x :: pre, k, post, by rw [he]; rfl, ⟨hx, hs⟩, ?_⟩
        simpa using hk
    · exact Or.inr ⟨[], x, xs, rfl, trivial, by simpa using hx⟩

/-- C16: `launchKernels` submits the invocations in list order and stops at the
first one whose launch reports a failure: that status is returned and the
submission attempts are exactly the invocations up to and including it; when
no launch fails all are submitted in order and success is returned; every list
falls under one of the two cases. For `[A, B, C]` with `B` failing the attempts
are `A`, `B` and the result is the status of `B`. -/
theorem launchKernels_stops_at_first_failure
    (launch : List KernelInvocation → KernelInvocation → Nat) :
    (∀ stream kernels : List KernelInvocation, allSucceed launch stream kernels →
      launchKernels launch stream kernels = (hipSuccess, stream ++ kernels)) ∧
    (∀ (stream pre : List KernelInvocation) (k : KernelInvocation)
      (post : List KernelInvocation),
      allSucceed launch stream pre → launch (stream ++ pre) k ≠ hipSuccess →
      launchKernels launch stream (pre ++ k :: post) =
        (launch (stream ++ pre) k, stream ++ pre ++ [k])) ∧
    (∀ stream kernels : List KernelInvocation, allSucceed launch stream kernels ∨
      ∃ pre k post, kernels = pre ++ k :: post ∧ allSucceed launch stream pre ∧
        launch (stream ++ pre) k ≠ hipSuccess) ∧
    (∀ A B C : KernelInvocation, launch [] A = hipSuccess → launch [A] B ≠ hipSuccess →
      launchKernels launch [] [A, B, C] = (launch [A] B, [A, B])) := by
  refine ⟨fun stream kernels h => launchKernels_allSucceed launch kernels stream h,
    fun stream pre k post h hk => launchKernels_first_failure launch pre stream k post h hk,
    fun stream kernels => allSucceed_or_first_failure launch kernels stream, ?_⟩
  intro A B C hA hB
  have := launchKernels_first_failure launch [A] [] B [C] ⟨hA, trivial⟩ (by simpa using hB)
  simpa using this

/-- C16 witness: on a driver where the launch of `B` reports `719`, the batch
`[A, B, C]` makes the two attempts `A`, `B` and returns `719`; the batch
`[A, C]` submits both and returns success. -/
theorem launchKernels_stops_at_first_failure_witness :
    failsOnB [] (invocationOf "A") = hipSuccess ∧
    failsOnB [invocationOf "A"] (invocationOf "B") ≠ hipSuccess ∧
    launchKernels failsOnB [] [invocationOf "A", invocationOf "B", invocationOf "C"] =
      (719, [invocationOf "A", invocationOf "B"]) ∧
    launchKernels failsOnB [] [invocationOf "A", invocationOf "C"] =
      (hipSuccess, [invocationOf "A", invocationOf "C"]) :=
  ⟨by decide, by decide,
    ((launchKernels_stops_at_first_failure failsOnB).2.2.2 (invocationOf "A")
      (invocationOf "B") (invocationOf "C") (by decide) (by decide)).trans (by decide),
    by decide⟩


/-! ## Lazy loading -/

theorem lookupKernel_frame (s : SolutionAdapter) (name : String) :
    (lookupKernel s name).2.m_modules = s.m_modules ∧
    (lookupKernel s name).2.m_loadedCOFiles = s.m_loadedCOFiles ∧
    (lookupKernel s name).2.lazyLoading = s.lazyLoading := by
  unfold lookupKernel
  split
  · exact ⟨rfl, rfl, rfl⟩
  · split
    · exact ⟨rfl, rfl, rfl⟩
    · exact ⟨rfl, rfl, rfl⟩

/-- One resolution leaves the modules and the loaded-file set as they were, or
creates one module from a file that was not in the set and adds that file. -/
theorem getKernel_step (env : Loader) (s : SolutionAdapter) (name : String) :
    ((getKernel env s name).2.m_modules = s.m_modules ∧
      (getKernel env s name).2.m_loadedCOFiles = s.m_loadedCOFiles ∧
      (getKernel env s name).2.lazyLoading = s.lazyLoading) ∨
    (∃ m : CodeObjectModule, ∃ architecture dir : String,
      s.lazyLoading = some (architecture, dir) ∧
      m.file = env.coFileFor architecture name ∧
      m.file ∉ s.m_loadedCOFiles ∧
      (getKernel env s name).2.m_modules = s.m_modules ++ [m] ∧
      (getKernel env s name).2.m_loadedCOFiles = insert m.file s.m_loadedCOFiles ∧
      (getKernel env s name).2.lazyLoading = s.lazyLoading) := by
  have hframe := lookupKernel_frame s name
  unfold getKernel
  split
  · rename_i h s1 heq
    rw [heq] at hframe
    exact Or.inl hframe
  · split
    · exact Or.inl ⟨rfl, rfl, rfl⟩
    · rename_i architecture dir hlazy
      dsimp only
      split
      · exact Or.inl hframe
      · rename_i hnot
        split
        · exact Or.inl ⟨rfl, rfl, rfl⟩
        · rename_i s1 hload
          unfold loadCodeObjectFile at hload
          split at hload
          · exact absurd hload (by simp)
          · rename_i kernels _
            have hs1 : s1 = { s with m_modules := s.m_modules ++
                [⟨env.coFileFor architecture name, kernels⟩] } :=
              (Option.some.inj hload).symm
            subst hs1
            refine Or.inr ⟨⟨env.coFileFor architecture name, kernels⟩, architecture, dir,
              hlazy, rfl, hnot, ?_, ?_, ?_⟩
            · rw [(lookupKernel_frame _ name).1]
            · rw [(lookupKernel_frame _ name).2.1]
            · rw [(lookupKernel_frame _ name).2.2]

theorem lazyInvariant_step (env : Loader) (s0 s : SolutionAdapter) (name : String)
    (h : LazyInvariant s0 s) : LazyInvariant s0 (getKernel env s name).2 := by
  obtain ⟨added, hmod, hnd, hset, hlazy⟩ := h
  rcases getKernel_step env s name with ⟨h1, h2, h3⟩ | ⟨m, _, _, _, _, hnot, h1, h2, h3⟩
  · exact ⟨added, by rw [h1, hmod], hnd, by rw [h2, hset], by rw [h3, hlazy]⟩
  · refine ⟨added ++ [m], by rw [h1, hmod, List.append_assoc], ?_, ?_, by rw [h3, hlazy]⟩
    · rw [List.map_append, List.nodup_append]
      refine ⟨hnd, by simp, ?_⟩
      intro a ha hb
      simp only [List.map_cons, List.map_nil, List.mem_singleton] at hb
      subst hb
      apply hnot
      rw [← hset]
      exact List.mem_toFinset.2 ha
    · rw [h2, ← hset]
      ext f
      simp only [List.map_append, List.map_cons, List.map_nil, List.toFinset_append,
        List.toFinset_cons, List.toFinset_nil, Finset.mem_union, List.mem_toFinset,
        Finset.mem_insert, Finset.mem_singleton, insert_emptyc_eq]
      tauto

theorem lazyInvariant_resolveAll (env : Loader) (s0 : SolutionAdapter) (names : List String) :
    ∀ s : SolutionAdapter, LazyInvariant s0 s → LazyInvariant s0 (resolveAll env s names) := by
  induction names with
  | nil => intro s h; exact h
  | cons n ns ih =>
    intro s h
    exact ih _ (lazyInvariant_step env s0 s n h)

/-- C17: in every state reached from an armed adapter with an empty
loaded-file set by a sequence of kernel resolutions, the modules created since
come from pairwise distinct files, these files are exactly the loaded-file set,
so the number of modules created equals the size of the set, and resolving a
name whose file is in the set creates no module. -/
theorem lazy_loading_never_duplicates (env : Loader) (s0 : SolutionAdapter)
    (architecture dir : String) (harmed : s0.lazyLoading = some (architecture, dir))
    (hempty : s0.m_loadedCOFiles = ∅) (names : List String) :
    (∃ added : List CodeObjectModule,
      (resolveAll env s0 names).m_modules = s0.m_modules ++ added ∧
      (added.map (·.file)).Nodup ∧
      (added.map (·.file)).toFinset = (resolveAll env s0 names).m_loadedCOFiles ∧
      added.length = (resolveAll env s0 names).m_loadedCOFiles.card) ∧
    (∀ name : String,
      env.coFileFor architecture name ∈ (resolveAll env s0 names).m_loadedCOFiles →
      (getKernel env (resolveAll env s0 names) name).2.m_modules =
        (resolveAll env s0 names).m_modules ∧
      (getKernel env (resolveAll env s0 names) name).2.m_loadedCOFiles =
        (resolveAll env s0 names).m_loadedCOFiles) := by
  have hinit : LazyInvariant s0 s0 := ⟨[], by simp, by simp, by simp [hempty], rfl⟩
  obtain ⟨added, hmod, hnd, hset, hlazy⟩ := lazyInvariant_resolveAll env s0 names s0 hinit
  refine ⟨⟨added, hmod, hnd, hset, ?_⟩, ?_⟩
  · rw [← hset, List.toFinset_card_of_nodup hnd, List.length_map]
  · intro name hin
    rcases getKernel_step env (resolveAll env s0 names) name with
      ⟨h1, h2, _⟩ | ⟨m, a, d, hl, hfile, hnot, _, _, _⟩
    · exact ⟨h1, h2⟩
    · rw [hlazy, harmed] at hl
      have ha : a = architecture := by
        have := Option.some.inj hl
        exact (Prod.mk.inj this).1.symm
      rw [hfile, ha] at hnot
      exact absurd hin hnot

/-- C17 witness: resolving `k1`, `k2`, `k1`, `k3` from a fresh armed adapter
loads the file `co1` once and the file `co2` once: two modules, two entries in
the loaded-file set. -/
theorem lazy_loading_never_duplicates_witness :
    armedAdapter.lazyLoading = some ("gfx90a", "/opt/lib") ∧
    armedAdapter.m_loadedCOFiles = ∅ ∧
    (resolveAll sampleLoader armedAdapter ["k1", "k2", "k1", "k3"]).m_modules =
      [⟨"co1", ["k1", "k2"]⟩, ⟨"co2", ["k3"]⟩] ∧
    (∃ added : List CodeObjectModule,
      (resolveAll sampleLoader armedAdapter ["k1", "k2", "k1", "k3"]).m_modules =
        armedAdapter.m_modules ++ added ∧
      (added.map (·.file)).Nodup ∧
      (added.map (·.file)).toFinset =
        (resolveAll sampleLoader armedAdapter ["k1", "k2", "k1", "k3"]).m_loadedCOFiles ∧
      added.length =
        (resolveAll sampleLoader armedAdapter ["k1", "k2", "k1", "k3"]).m_loadedCOFiles.card) :=
  ⟨rfl, rfl, by decide,
    (lazy_loading_never_duplicates sampleLoader armedAdapter "gfx90a" "/opt/lib" rfl rfl
      ["k1", "k2", "k1", "k3"]).1⟩


end Tensile
